import Mathlib

/-!
# Verification of the PDF segmentation-and-chunking engine

Shallow embedding of the core of `PdfEditor.py` and `utils.py` from the
PDFDocTranslator repository, with theorems settling the frozen claims about
the natural-language specification.

Strings are modelled as `List Char`; Python integers as `Int` (page indices
may be negative in principle, and the source guards `0 <= start_page`);
fallible paths return `Option`.
-/

namespace PdfDocTranslator

/-- Python `str.isspace` restricted to the ASCII whitespace characters
(space, tab, newline, carriage return, vertical tab, form feed). -/
def isSpace (c : Char) : Bool :=
  c = ' ' || c = '\t' || c = '\n' || c = '\r' || c = '\x0b' || c = '\x0c'

/-- Python slice `l[a:b]` for non-negative clamped bounds. -/
def pySlice (l : List Char) (a b : Nat) : List Char :=
  (l.drop a).take (b - a)

/-- Python `str.strip()`: remove leading and trailing whitespace. -/
def pyStrip (l : List Char) : List Char :=
  ((l.dropWhile isSpace).reverse.dropWhile isSpace).reverse

/-! ## Chunker: `split_text` (PdfEditor.py lines 276-302) -/

/-- The `while start < len(text)` loop of `split_text`: at each step it
appends `text[start:end]` with `end = min(start + m, len(text))` and
continues from `end`.  The loop is only entered with `0 < m`
(the caller has already rejected `max_chunk_size <= 0`). -/
def chunkLoop (text : List Char) (m : Nat) (start : Nat) : List (List Char) :=
  if _h : start < text.length ∧ 0 < m then
    -- text[start:end] with end = min(start+m, len) equals (drop start).take m
    ((text.drop start).take m) :: chunkLoop text m (min (start + m) text.length)
  else
    []
termination_by text.length - start
decreasing_by
  simp only [Nat.min_def]
  split <;> omega

/-- Model of `split_text(text, max_chunk_size)`: empty text or non-positive chunk
size yield `[]`, otherwise the positional chunking loop runs. -/
def split_text (text : List Char) (maxChunkSize : Int) : List (List Char) :=
  if text = [] then []
  else if maxChunkSize ≤ 0 then []
  else chunkLoop text maxChunkSize.toNat 0

/-! ## RetryPolicy: `retry_api_call` (utils.py lines 7-61) -/

/-- Outcome of one invocation of the wrapped operation: success, an
`HttpError`/`APIError` carrying an extracted status code (`none` when the
error object exposes no status), or any other exception. -/
inductive ApiOutcome (α : Type) where
  | success (v : α)
  | apiError (status : Option Int)
  | otherError
deriving DecidableEq, Repr

/-- Result of the wrapped call: a returned value, a re-raised
`HttpError`/`APIError`, or a re-raised unexpected exception. -/
inductive RetryOutcome (α : Type) where
  | value (v : α)
  | raisedApi (status : Option Int)
  | raisedOther
deriving DecidableEq, Repr

/-- Test `status_code in retry_status_codes` (a `None` status is never a
member of the integer tuple). -/
def statusRetryable (codes : List Int) : Option Int → Bool
  | some s => codes.contains s
  | none => false

/-- The `while retries <= max_retries` loop of the wrapper produced by
`retry_api_call`.  `f k` is the outcome of the `k`-th (0-based) invocation
of the wrapped function; the second component of the result counts the
total number of invocations.  The loop condition is always true on entry
(`retries` starts at 0 and is only incremented while `< max_retries`), so
the loop is modelled by the recursion below. -/
def retryLoop (maxRetries : Nat) (codes : List Int) (f : Nat → ApiOutcome α)
    (retries : Nat) (calls : Nat) : RetryOutcome α × Nat :=
  match f calls with
  | .success v => (.value v, calls + 1)
  | .apiError st =>
    if statusRetryable codes st then
      if h : retries < maxRetries then
        retryLoop maxRetries codes f (retries + 1) (calls + 1)
      else
        (.raisedApi st, calls + 1)
    else
      (.raisedApi st, calls + 1)
  | .otherError => (.raisedOther, calls + 1)
termination_by maxRetries - retries

/-- The wrapper produced by `retry_api_call(max_retries, ...)` applied to a
function whose successive invocations behave as `f 0`, `f 1`, ….
Returns the final result together with the number of invocations. -/
def retry_api_call (maxRetries : Nat) (codes : List Int)
    (f : Nat → ApiOutcome α) : RetryOutcome α × Nat :=
  retryLoop maxRetries codes f 0 0

/-! ## Lemmas about the chunking loop -/

theorem chunkLoop_join (text : List Char) (m : Nat) (hm : 0 < m) :
    ∀ k start, text.length - start ≤ k →
      (chunkLoop text m start).flatten = text.drop start := by
  intro k
  induction k with
  | zero =>
    intro start hk
    rw [chunkLoop]
    have hs : ¬ (start < text.length ∧ 0 < m) := by omega
    rw [dif_neg hs, List.flatten_nil, List.drop_of_length_le (by omega)]
  | succ k ih =>
    intro start hk
    rw [chunkLoop]
    by_cases hs : start < text.length ∧ 0 < m
    · rw [dif_pos hs, List.flatten_cons]
      rw [ih (min (start + m) text.length) (by omega)]
      have hdrop : text.drop (min (start + m) text.length) = text.drop (start + m) := by
        rcases Nat.le_total (start + m) text.length with h | h
        · rw [Nat.min_eq_left h]
        · rw [Nat.min_eq_right h, List.drop_of_length_le h, List.drop_of_length_le (by omega)]
      rw [hdrop, ← List.drop_drop, List.take_append_drop]
    · rw [dif_neg hs, List.flatten_nil]
      have : ¬ start < text.length := by omega
      rw [List.drop_of_length_le (by omega)]

theorem chunkLoop_length_le (text : List Char) (m : Nat) :
    ∀ k start, text.length - start ≤ k →
      ∀ c, c ∈ chunkLoop text m start → c.length ≤ m := by
  intro k
  induction k with
  | zero =>
    intro start hk c hc
    rw [chunkLoop] at hc
    have hs : ¬ (start < text.length ∧ 0 < m) := by omega
    rw [dif_neg hs] at hc
    simp at hc
  | succ k ih =>
    intro start hk c hc
    rw [chunkLoop] at hc
    by_cases hs : start < text.length ∧ 0 < m
    · rw [dif_pos hs] at hc
      rcases List.mem_cons.mp hc with rfl | hc
      · simp
      · exact ih (min (start + m) text.length) (by omega) c hc
    · rw [dif_neg hs] at hc
      simp at hc

/-- Claim C2: For every non-empty `text` and every `max_chunk_size > 0`,
`split_text(text, max_chunk_size)` returns an ordered sequence of
substrings whose concatenation reproduces `text` exactly (hence no
overlap, no reordering), and every piece has length ≤ `max_chunk_size`. -/
theorem split_text_reconstructs (text : List Char) (m : Int)
    (htext : text ≠ []) (hm : 0 < m) :
    (split_text text m).flatten = text ∧
      ∀ c ∈ split_text text m, (c.length : Int) ≤ m := by
  have hnotle : ¬ m ≤ 0 := by omega
  have hmn : 0 < m.toNat := by omega
  unfold split_text
  simp only [htext, hnotle, if_false, if_neg]
  constructor
  · simpa using chunkLoop_join text m.toNat hmn text.length 0 (by omega)
  · intro c hc
    have := chunkLoop_length_le text m.toNat text.length 0 (by omega) c hc
    omega

/-- Witness for `split_text_reconstructs` at `text = "abcde"`, `m = 2`. -/
theorem split_text_reconstructs_witness :
    (split_text "abcde".data 2).flatten = "abcde".data ∧
      ∀ c ∈ split_text "abcde".data 2, (c.length : Int) ≤ 2 :=
  split_text_reconstructs "abcde".data 2 (by decide) (by decide)

/-! ## Lemmas about the retry wrapper -/

theorem retryLoop_all_retryable (codes : List Int) (f : Nat → ApiOutcome α)
    (st : Nat → Option Int)
    (hf : ∀ k, f k = .apiError (st k) ∧ statusRetryable codes (st k) = true) :
    ∀ maxRetries retries calls,
      retryLoop maxRetries codes f retries calls =
        (.raisedApi (st (calls + (maxRetries - retries))),
          calls + (maxRetries - retries) + 1) := by
  intro maxRetries
  have key : ∀ k retries, maxRetries - retries ≤ k → ∀ calls,
      retryLoop maxRetries codes f retries calls =
        (.raisedApi (st (calls + (maxRetries - retries))),
          calls + (maxRetries - retries) + 1) := by
    intro k
    induction k with
    | zero =>
      intro retries hk calls
      obtain ⟨hfc, hretry⟩ := hf calls
      rw [retryLoop, hfc]
      have hlt : ¬ retries < maxRetries := by omega
      simp [hretry, hlt, Nat.sub_eq_zero_of_le (by omega : maxRetries ≤ retries)]
    | succ k ih =>
      intro retries hk calls
      obtain ⟨hfc, hretry⟩ := hf calls
      rw [retryLoop, hfc]
      simp only [hretry, if_true]
      by_cases hlt : retries < maxRetries
      · simp only [hlt, dif_pos]
        rw [ih (retries + 1) (by omega) (calls + 1)]
        have h1 : calls + 1 + (maxRetries - (retries + 1)) = calls + (maxRetries - retries) := by
          omega
        rw [h1]
      · simp only [hlt, dif_neg, not_false_iff]
        have hd : maxRetries - retries = 0 := by omega
        rw [hd]
        simp
  intro retries calls
  exact key (maxRetries - retries) retries (Nat.le_refl _) calls

/-- Claim C3: For the retry wrapper with `max_retries = 2`: a
classified-retryable failure (status in the configured retryable set) on
every attempt results in exactly 3 total invocations of the wrapped
operation and then propagation of the final failure; a non-retryable or
classifier-unrecognized failure on the first attempt results in exactly 1
invocation and immediate propagation without consuming a retry. -/
theorem retry_api_call_attempts (codes : List Int) :
    (∀ (f : Nat → ApiOutcome α) (st : Nat → Option Int),
      (∀ k, f k = .apiError (st k) ∧ statusRetryable codes (st k) = true) →
        retry_api_call 2 codes f = (.raisedApi (st 2), 3)) ∧
    (∀ (f : Nat → ApiOutcome α) (st : Option Int),
      f 0 = .apiError st → statusRetryable codes st = false →
        retry_api_call 2 codes f = (.raisedApi st, 1)) ∧
    (∀ (f : Nat → ApiOutcome α),
      f 0 = .otherError → retry_api_call 2 codes f = (.raisedOther, 1)) := by
  refine ⟨?_, ?_, ?_⟩
  · intro f st hf
    have := retryLoop_all_retryable codes f st hf 2 0 0
    simpa [retry_api_call] using this
  · intro f st hf hns
    rw [retry_api_call, retryLoop, hf]
    simp [hns]
  · intro f hf
    rw [retry_api_call, retryLoop, hf]

/-- Witness for `retry_api_call_attempts`: with retryable set `[500]`,
a function failing with status 500 on every attempt is invoked exactly 3
times; a function failing with status 404 on the first attempt is invoked
exactly once. -/
theorem retry_api_call_attempts_witness :
    retry_api_call 2 [(500 : Int)] (fun _ => ApiOutcome.apiError (α := Unit) (some 500)) =
        (.raisedApi (some 500), 3) ∧
      retry_api_call 2 [(500 : Int)] (fun _ => ApiOutcome.apiError (α := Unit) (some 404)) =
        (.raisedApi (some 404), 1) := by
  constructor
  · exact (retry_api_call_attempts [(500 : Int)]).1
      (fun _ => ApiOutcome.apiError (some 500)) (fun _ => some 500)
      (fun _ => ⟨rfl, rfl⟩)
  · exact (retry_api_call_attempts [(500 : Int)]).2.1
      (fun _ => ApiOutcome.apiError (some 404)) (some 404) rfl (by decide)

/-! ## Whitespace-insensitive search: `_find_ignoring_whitespace`
(PdfEditor.py lines 150-186) -/

/-- Number of leading whitespace characters of a list. -/
def countWs : List Char → Nat
  | [] => 0
  | c :: cs => if isSpace c then countWs cs + 1 else 0

/-- The inner `while n_idx < n_len and needle[n_idx].isspace(): n_idx += 1`
loop: index of the first non-whitespace needle character at or after `n`
(or `needle.length` if only whitespace remains; `n` itself if `n` is out of
range). -/
def skipWs (needle : List Char) (n : Nat) : Nat :=
  n + countWs (needle.drop n)

theorem countWs_eq_zero {l : List Char} (h : l = [] ∨ isSpace (l.headD ' ') = false) :
    countWs l = 0 := by
  rcases l with _ | ⟨c, cs⟩
  · rfl
  · simp only [List.headD_cons] at h
    rcases h with h | h
    · exact absurd h (by simp)
    · simp [countWs, h]

/-- The function `skipWs` satisfies the loop's step equation. -/
theorem skipWs_step (needle : List Char) (n : Nat) :
    skipWs needle n =
      if n < needle.length ∧ isSpace (needle.getD n ' ') then skipWs needle (n + 1)
      else n := by
  by_cases h : n < needle.length ∧ isSpace (needle.getD n ' ')
  · rw [if_pos h]
    obtain ⟨hn, hws⟩ := h
    unfold skipWs
    have hdrop : needle.drop n = needle.getD n ' ' :: needle.drop (n + 1) := by
      rw [List.getD_eq_getElem _ _ hn]
      exact (List.drop_eq_getElem_cons hn)
    rw [hdrop, countWs, if_pos hws]
    omega
  · rw [if_neg h]
    unfold skipWs
    rw [countWs_eq_zero, Nat.add_zero]
    by_cases hn : n < needle.length
    · right
      have hws : isSpace (needle.getD n ' ') = false := by
        rcases Bool.eq_false_or_eq_true (isSpace (needle.getD n ' ')) with ht | hf
        · exact absurd ⟨hn, ht⟩ h
        · exact hf
      have hdrop : needle.drop n = needle.getD n ' ' :: needle.drop (n + 1) := by
        rw [List.getD_eq_getElem _ _ hn]
        exact (List.drop_eq_getElem_cons hn)
      rw [hdrop]
      simpa using hws
    · left
      exact List.drop_eq_nil_of_le (by omega)

/-- Result (`-1` or an index) of the scan, from the `potential_start` variable. -/
def psVal : Option Nat → Int
  | some p => (p : Int)
  | none => -1

/-- The `while h_idx < h_len` scan of `_find_ignoring_whitespace`, as a
fuel-indexed small-step recursion.  State: `h` = `h_idx`, `n` = `n_idx`,
`ps` = `potential_start` (`none` for `-1`), `so` = the (dead) mutated
`start_offset`.  Each call performs one step of the Python loop body:
skip one haystack whitespace character, or (at a non-whitespace haystack
character) skip needle whitespace, test for completion, and compare.
Fuel exhaustion returns `-1`; `find_fuel` below always suffices
(`wsLoop_fuel_irrelevant`). -/
def wsLoop (H N : List Char) : Nat → Nat → Nat → Option Nat → Nat → Int
  | 0, _, _, _, _ => -1
  | fuel + 1, h, n, ps, so =>
    if h < H.length then
      if isSpace (H.getD h ' ') then
        -- haystack whitespace: advance (bumping the dead start_offset
        -- only before a potential match, as in the source)
        wsLoop H N fuel (h + 1) n ps (if ps = none then so + 1 else so)
      else
        -- n_idx is advanced past needle whitespace (n' = skipWs N n below)
        if skipWs N n = N.length then
          -- all non-whitespace needle characters matched
          psVal ps
        else if H.getD h ' ' = N.getD (skipWs N n) ' ' then
          wsLoop H N fuel (h + 1) (skipWs N n + 1)
            (if skipWs N n = 0 then some h else ps) so
        else
          match ps with
          | some p => wsLoop H N fuel (p + 1) 0 none so   -- backtrack: h_idx = potential_start; h_idx += 1
          | none => wsLoop H N fuel (h + 1) 0 none so
    else
      -- loop exit: check whether only needle whitespace remains
      if skipWs N n = N.length then psVal ps else -1

/-- Ample fuel for `wsLoop`: strictly more than the scan measure of any
reachable state (see `wsLoopMeasure`). -/
def find_fuel (H : List Char) : Nat :=
  (2 * (H.length + 1) + 1) * (H.length + 1) + H.length + 1

/-- Model of `_find_ignoring_whitespace(haystack, needle, start_offset)`. -/
def find_ignoring_whitespace (H N : List Char) (so : Nat) : Int :=
  if N = [] then (so : Int)
  else wsLoop H N (find_fuel H) so 0 none so

/-! ### Specification-side matching predicates

`matchSpec H N p` follows the spec's words: a whitespace-insensitive
match of `N` begins at position `p` of `H` when some segment of `H`
starting exactly at `p` (whose first character is non-whitespace) has the
same non-whitespace characters, in order, as `N`. -/

/-- Deterministic whitespace-skipping match: from position `h` of `H`,
skipping whitespace in `H`, the characters `cs` (all non-whitespace)
appear consecutively. -/
def skipMatchB (H : List Char) (h : Nat) : List Char → Bool
  | [] => true
  | c :: cs =>
    decide (skipWs H h < H.length) && (H.getD (skipWs H h) ' ' = c) &&
      skipMatchB H (skipWs H h + 1) cs

/-- The function `skipMatchB` satisfies the one-character-at-a-time step equation. -/
theorem skipMatchB_step (H : List Char) (h : Nat) (c : Char) (cs : List Char) :
    skipMatchB H h (c :: cs) =
      if h < H.length then
        if isSpace (H.getD h ' ') then skipMatchB H (h + 1) (c :: cs)
        else (H.getD h ' ' = c) && skipMatchB H (h + 1) cs
      else false := by
  by_cases hlt : h < H.length
  · by_cases hws : isSpace (H.getD h ' ') = true
    · rw [if_pos hlt, if_pos hws]
      have hskip : skipWs H h = skipWs H (h + 1) := by
        rw [skipWs_step H h, if_pos ⟨hlt, hws⟩]
      rw [skipMatchB, skipMatchB, hskip]
    · rw [if_pos hlt, if_neg hws]
      have hskip : skipWs H h = h := by
        rw [skipWs_step H h, if_neg (by tauto)]
      rw [skipMatchB, hskip]
      simp [hlt]
  · rw [if_neg hlt]
    have hskip : skipWs H h = h := by
      rw [skipWs_step H h, if_neg (by tauto)]
    rw [skipMatchB, hskip]
    simp [hlt]

/-- A whitespace-insensitive match of the collapsed needle `ns` begins at
position `p` (executable form). -/
def matchAtB (H : List Char) (ns : List Char) (p : Nat) : Bool :=
  match ns with
  | [] => false
  | c :: cs => decide (p < H.length) && (H.getD p ' ' = c) && skipMatchB H (p + 1) cs

/-- A whitespace-insensitive match of needle `N` begins at position `p` of
`H`: `p` is in range, `H` at `p` is not whitespace, and some segment
`H[p:q]` has exactly the non-whitespace characters of `N` (which are
required to be non-trivial). -/
def matchSpec (H N : List Char) (p : Nat) : Prop :=
  p < H.length ∧ isSpace (H.getD p ' ') = false ∧
    N.filter (fun c => !isSpace c) ≠ [] ∧
    ∃ q, p ≤ q ∧ q ≤ H.length ∧
      (pySlice H p q).filter (fun c => !isSpace c) = N.filter (fun c => !isSpace c)

/-- Auxiliary scan for `tryFrom`, structurally recursive on the number of
remaining candidate positions. -/
def tryFromAux (H ns : List Char) : Nat → Nat → Int
  | 0, _ => -1
  | k + 1, p => if matchAtB H ns p then (p : Int) else tryFromAux H ns k (p + 1)

/-- Reference linear scan: the least `p ≥ so` at which a match of the
collapsed needle `ns` begins, or `-1`. -/
def tryFrom (H ns : List Char) (p : Nat) : Int :=
  tryFromAux H ns (H.length - p) p

/-- The function `tryFrom` satisfies the scan's step equation. -/
theorem tryFrom_step (H ns : List Char) (p : Nat) :
    tryFrom H ns p =
      if p < H.length then
        (if matchAtB H ns p then (p : Int) else tryFrom H ns (p + 1))
      else
        -1 := by
  by_cases hlt : p < H.length
  · rw [if_pos hlt]
    unfold tryFrom
    have hk : H.length - p = (H.length - (p + 1)) + 1 := by omega
    rw [hk, tryFromAux]
  · rw [if_neg hlt]
    unfold tryFrom
    have hk : H.length - p = 0 := by omega
    rw [hk, tryFromAux]

/-! ### Basic properties of `skipWs` -/

theorem skipWs_ge (N : List Char) (n : Nat) : n ≤ skipWs N n := by
  unfold skipWs
  omega

theorem countWs_le_length : ∀ l : List Char, countWs l ≤ l.length := by
  intro l
  induction l with
  | nil => simp [countWs]
  | cons c cs ih =>
    by_cases h : isSpace c = true
    · simp only [countWs, h, if_true, List.length_cons]
      omega
    · simp [countWs, h]

theorem skipWs_le_length (N : List Char) (n : Nat) (hn : n ≤ N.length) :
    skipWs N n ≤ N.length := by
  unfold skipWs
  have := countWs_le_length (N.drop n)
  simp only [List.length_drop] at this
  omega

theorem skipWs_stop (N : List Char) (n : Nat)
    (h : skipWs N n < N.length) : isSpace (N.getD (skipWs N n) ' ') = false := by
  have key : ∀ k n, N.length - n ≤ k → skipWs N n < N.length →
      isSpace (N.getD (skipWs N n) ' ') = false := by
    intro k
    induction k with
    | zero =>
      intro n hk hlt
      rw [skipWs_step] at hlt ⊢
      have hcond : ¬ (n < N.length ∧ isSpace (N.getD n ' ') = true) := by
        rcases Bool.eq_false_or_eq_true (isSpace (N.getD n ' ')) with ht | hf
        · intro ⟨h1, _⟩; omega
        · intro ⟨_, h2⟩; rw [hf] at h2; exact Bool.false_ne_true h2
      rw [if_neg hcond] at hlt ⊢
      rcases Bool.eq_false_or_eq_true (isSpace (N.getD n ' ')) with ht | hf
      · exact absurd ⟨hlt, ht⟩ hcond
      · exact hf
    | succ k ih =>
      intro n hk hlt
      rw [skipWs_step] at hlt ⊢
      by_cases hcond : n < N.length ∧ isSpace (N.getD n ' ') = true
      · rw [if_pos hcond] at hlt ⊢
        exact ih (n + 1) (by omega) hlt
      · rw [if_neg hcond] at hlt ⊢
        rcases Bool.eq_false_or_eq_true (isSpace (N.getD n ' ')) with ht | hf
        · exact absurd ⟨hlt, ht⟩ hcond
        · exact hf
  exact key (N.length - n) n (Nat.le_refl _) h

/-- Skipping leading needle whitespace does not change the non-whitespace
content of the rest of the needle. -/
theorem filter_drop_skipWs (N : List Char) (n : Nat) :
    (N.drop (skipWs N n)).filter (fun c => !isSpace c) =
      (N.drop n).filter (fun c => !isSpace c) := by
  have key : ∀ k n, N.length - n ≤ k →
      (N.drop (skipWs N n)).filter (fun c => !isSpace c) =
        (N.drop n).filter (fun c => !isSpace c) := by
    intro k
    induction k with
    | zero =>
      intro n hk
      rw [skipWs_step]
      have hcond : ¬ (n < N.length ∧ isSpace (N.getD n ' ') = true) := by
        intro ⟨h1, _⟩; omega
      rw [if_neg hcond]
    | succ k ih =>
      intro n hk
      rw [skipWs_step]
      by_cases hcond : n < N.length ∧ isSpace (N.getD n ' ') = true
      · rw [if_pos hcond, ih (n + 1) (by omega)]
        obtain ⟨hn, hws⟩ := hcond
        have hdrop : N.drop n = N.getD n ' ' :: N.drop (n + 1) := by
          rw [List.getD_eq_getElem _ _ hn]
          exact List.drop_eq_getElem_cons hn
        have hws' : isSpace (N[n]?.getD ' ') = true := by
          rw [← List.getD_eq_getElem?_getD]
          exact hws
        rw [hdrop, List.filter_cons_of_neg (by simp [hws'])]
      · rw [if_neg hcond]
  exact key (N.length - n) n (Nat.le_refl _)

/-- The non-whitespace content of any prefix is likewise unchanged. -/
theorem filter_take_skipWs (N : List Char) (n : Nat) :
    (N.take (skipWs N n)).filter (fun c => !isSpace c) =
      (N.take n).filter (fun c => !isSpace c) := by
  have h1 : ∀ k, (N.take k).filter (fun c => !isSpace c) ++
      (N.drop k).filter (fun c => !isSpace c) = N.filter (fun c => !isSpace c) := by
    intro k
    rw [← List.filter_append, List.take_append_drop]
  have h2 := h1 (skipWs N n)
  rw [filter_drop_skipWs] at h2
  have h3 := h1 n
  have := h2.trans h3.symm
  exact List.append_cancel_right this

/-- Extending a slice of the haystack by its next character. -/
theorem slice_take_succ (H : List Char) (p h : Nat) (hp : p ≤ h) (hh : h < H.length) :
    (H.drop p).take (h + 1 - p) = (H.drop p).take (h - p) ++ [H.getD h ' '] := by
  have hidx : h - p < (H.drop p).length := by
    simp only [List.length_drop]
    omega
  have h1 : h + 1 - p = (h - p) + 1 := by omega
  rw [h1, List.take_succ]
  congr 1
  rw [List.getElem?_eq_getElem hidx]
  simp only [Option.toList_some]
  congr 1
  rw [List.getElem_drop]
  have h2 : p + (h - p) = h := by omega
  simp only [h2]
  rw [List.getD_eq_getElem _ _ hh]

/-! ### Termination measure and loop invariant of the scan -/

/-- First haystack position not yet excluded as a candidate match start. -/
def scanBase (h : Nat) : Option Nat → Nat
  | none => h
  | some p => p + 1

/-- One while a partial match is in progress, zero otherwise. -/
def psBit : Option Nat → Nat
  | none => 0
  | some _ => 1

/-- Termination measure of the scan loop: dominated by the candidate base,
refined by the match-in-progress bit and the scan position. -/
def wsMeasure (H : List Char) (h : Nat) (ps : Option Nat) : Nat :=
  (2 * ((H.length + 1) - scanBase h ps) + psBit ps) * (H.length + 1) + (H.length - h)

theorem mul_add_lt_of_lt {A p p' r r' : Nat} (hA : r' < A) (hp : p' < p) :
    p' * A + r' < p * A + r :=
  calc p' * A + r' < p' * A + A := Nat.add_lt_add_left hA _
    _ = (p' + 1) * A := by ring
    _ ≤ p * A := Nat.mul_le_mul_right A hp
    _ ≤ p * A + r := Nat.le_add_right _ _

/-- Loop invariant of the scan for a needle with non-whitespace head: with
no partial match the needle pointer is 0; during a partial match started at
`p`, the haystack from `p` (exclusive of whitespace) equals the consumed
needle prefix (exclusive of whitespace). -/
def ScanInv (H N : List Char) (h n : Nat) (ps : Option Nat) : Prop :=
  match ps with
  | none => n = 0
  | some p => 1 ≤ n ∧ n ≤ N.length ∧ p < h ∧ h ≤ H.length ∧
      ((H.drop p).take (h - p)).filter (fun c => !isSpace c) =
        (N.take n).filter (fun c => !isSpace c)

/-- The value the scan will produce from a given state. -/
def scanGoal (H N : List Char) (h n : Nat) (ps : Option Nat) : Int :=
  match ps with
  | none => tryFrom H (N.filter (fun c => !isSpace c)) h
  | some p =>
    if skipMatchB H h ((N.drop n).filter (fun c => !isSpace c)) then (p : Int)
    else tryFrom H (N.filter (fun c => !isSpace c)) (p + 1)

/-! ### `skipMatchB` as a predicate on haystack segments -/

theorem skipMatchB_exists (H : List Char) :
    ∀ k h cs, H.length - h ≤ k → h ≤ H.length → skipMatchB H h cs = true →
      ∃ q, h ≤ q ∧ q ≤ H.length ∧
        ((H.drop h).take (q - h)).filter (fun c => !isSpace c) = cs := by
  intro k
  induction k with
  | zero =>
    intro h cs hk hle hsm
    have hh : h = H.length := by omega
    subst hh
    cases cs with
    | nil => exact ⟨H.length, Nat.le_refl _, Nat.le_refl _, by simp⟩
    | cons c cs' =>
      rw [skipMatchB_step, if_neg (by omega)] at hsm
      exact absurd hsm Bool.false_ne_true
  | succ k ih =>
    intro h cs hk hle hsm
    cases cs with
    | nil => exact ⟨h, Nat.le_refl _, hle, by simp⟩
    | cons c cs' =>
      by_cases hh : h < H.length
      · rw [skipMatchB_step, if_pos hh] at hsm
        have hdropH : H.drop h = H.getD h ' ' :: H.drop (h + 1) := by
          rw [List.getD_eq_getElem _ _ hh]
          exact List.drop_eq_getElem_cons hh
        by_cases hws : isSpace (H.getD h ' ') = true
        · rw [if_pos hws] at hsm
          obtain ⟨q, hq1, hq2, hq3⟩ := ih (h + 1) (c :: cs') (by omega) (by omega) hsm
          refine ⟨q, by omega, hq2, ?_⟩
          rw [hdropH]
          have hsplit : (H.getD h ' ' :: H.drop (h + 1)).take (q - h) =
              H.getD h ' ' :: (H.drop (h + 1)).take (q - (h + 1)) := by
            have : q - h = (q - (h + 1)) + 1 := by omega
            rw [this, List.take_succ_cons]
          rw [hsplit, List.filter_cons_of_neg (by simpa using hws), hq3]
        · rw [if_neg hws] at hsm
          rw [Bool.and_eq_true] at hsm
          obtain ⟨hceq, hsm'⟩ := hsm
          obtain ⟨q, hq1, hq2, hq3⟩ := ih (h + 1) cs' (by omega) (by omega) hsm'
          refine ⟨q, by omega, hq2, ?_⟩
          rw [hdropH]
          have hsplit : (H.getD h ' ' :: H.drop (h + 1)).take (q - h) =
              H.getD h ' ' :: (H.drop (h + 1)).take (q - (h + 1)) := by
            have : q - h = (q - (h + 1)) + 1 := by omega
            rw [this, List.take_succ_cons]
          rw [hsplit, List.filter_cons_of_pos (by simpa using hws), hq3]
          have hc : H.getD h ' ' = c := by simpa using hceq
          rw [hc]
      · rw [skipMatchB_step, if_neg hh] at hsm
        exact absurd hsm Bool.false_ne_true

theorem skipMatchB_of_exists (H : List Char) :
    ∀ k h cs q, H.length - h ≤ k → h ≤ q → q ≤ H.length →
      ((H.drop h).take (q - h)).filter (fun c => !isSpace c) = cs →
      skipMatchB H h cs = true := by
  intro k
  induction k with
  | zero =>
    intro h cs q hk hhq hqle hfil
    have hh : h = H.length := by omega
    subst hh
    have hq : q = H.length := by omega
    subst hq
    simp at hfil
    subst hfil
    rfl
  | succ k ih =>
    intro h cs q hk hhq hqle hfil
    by_cases hh : h < H.length
    · by_cases hq : h = q
      · subst hq
        simp at hfil
        subst hfil
        rfl
      · have hlt : h < q := by omega
        have hdropH : H.drop h = H.getD h ' ' :: H.drop (h + 1) := by
          rw [List.getD_eq_getElem _ _ hh]
          exact List.drop_eq_getElem_cons hh
        have hsplit : (H.drop h).take (q - h) =
            H.getD h ' ' :: (H.drop (h + 1)).take (q - (h + 1)) := by
          rw [hdropH]
          have : q - h = (q - (h + 1)) + 1 := by omega
          rw [this, List.take_succ_cons]
        rw [hsplit] at hfil
        by_cases hws : isSpace (H.getD h ' ') = true
        · rw [List.filter_cons_of_neg (by simpa using hws)] at hfil
          have := ih (h + 1) cs q (by omega) (by omega) hqle hfil
          cases cs with
          | nil => rfl
          | cons c cs' =>
            rw [skipMatchB_step, if_pos hh, if_pos hws]
            exact this
        · rw [List.filter_cons_of_pos (by simpa using hws)] at hfil
          cases cs with
          | nil => exact absurd hfil (by simp)
          | cons c cs' =>
            rw [List.cons.injEq] at hfil
            obtain ⟨hc, hrest⟩ := hfil
            rw [skipMatchB_step, if_pos hh, if_neg hws]
            rw [Bool.and_eq_true]
            exact ⟨by simpa using hc, ih (h + 1) cs' q (by omega) (by omega) hqle hrest⟩
    · have hhe : h = H.length := by omega
      have hq : q = H.length := by omega
      subst hhe
      rw [hq] at hfil
      simp at hfil
      subst hfil
      rfl

/-- The predicate `matchAtB` is impossible past a short haystack suffix: if the
non-whitespace content of `H` from position `p` on is shorter than `ns`,
no match of `ns` (all non-whitespace) can begin at or after `p`. -/
theorem matchAtB_false_of_short (H ns : List Char)
    (hns : ∀ c ∈ ns, isSpace c = false) (p q : Nat) (hpq : p ≤ q)
    (hshort : ((H.drop p).filter (fun c => !isSpace c)).length < ns.length) :
    matchAtB H ns q = false := by
  cases hmb : matchAtB H ns q
  · rfl
  · exfalso
    cases ns with
    | nil => simp [matchAtB] at hmb
    | cons c cs =>
      simp only [matchAtB, Bool.and_eq_true, decide_eq_true_eq] at hmb
      obtain ⟨⟨hqlt, hceq⟩, hsm⟩ := hmb
      obtain ⟨q', hq1, hq2, hq3⟩ :=
        skipMatchB_exists H (H.length - (q + 1)) (q + 1) cs (Nat.le_refl _)
          (by omega) hsm
      have hdropH : H.drop q = H.getD q ' ' :: H.drop (q + 1) := by
        rw [List.getD_eq_getElem _ _ hqlt]
        exact List.drop_eq_getElem_cons hqlt
      have hcns : isSpace c = false := hns c (List.mem_cons_self _ _)
      have hslice : ((H.drop q).take (q' - q)).filter (fun ch => !isSpace ch) = c :: cs := by
        rw [hdropH]
        have : q' - q = (q' - (q + 1)) + 1 := by omega
        rw [this, List.take_succ_cons]
        rw [List.filter_cons_of_pos (by rw [hceq]; simp [hcns]), hq3, hceq]
      have hsub : ((H.drop q).take (q' - q)).Sublist (H.drop p) := by
        have h1 : ((H.drop q).take (q' - q)).Sublist (H.drop q) := List.take_sublist _ _
        have h2 : (H.drop q).Sublist (H.drop p) := by
          have : H.drop q = (H.drop p).drop (q - p) := by
            rw [List.drop_drop]
            congr 1
            omega
          rw [this]
          exact List.drop_sublist _ _
        exact h1.trans h2
      have hlen := (hsub.filter (fun ch => !isSpace ch)).length_le
      rw [hslice] at hlen
      simp only [List.length_cons] at hlen hshort
      omega

/-- If no match begins at or after `p0`, the reference scan yields `-1`. -/
theorem tryFrom_eq_neg_one (H ns : List Char) :
    ∀ k p0, H.length - p0 ≤ k → (∀ q, p0 ≤ q → matchAtB H ns q = false) →
      tryFrom H ns p0 = -1 := by
  intro k
  induction k with
  | zero =>
    intro p0 hk hall
    rw [tryFrom_step, if_neg (by omega)]
  | succ k ih =>
    intro p0 hk hall
    rw [tryFrom_step]
    by_cases hlt : p0 < H.length
    · rw [if_pos hlt, hall p0 (Nat.le_refl _), if_neg Bool.false_ne_true]
      exact ih (p0 + 1) (by omega) (fun q hq => hall q (by omega))
    · rw [if_neg hlt]

/-- Dichotomy for the reference scan: either no match at or after `p0` and
the result is `-1`, or the result is the least match position. -/
theorem tryFrom_dichotomy (H ns : List Char) :
    ∀ k p0, H.length - p0 ≤ k →
      (tryFrom H ns p0 = -1 ∧ ∀ q, p0 ≤ q → matchAtB H ns q = false) ∨
      (∃ p, p0 ≤ p ∧ matchAtB H ns p = true ∧ tryFrom H ns p0 = (p : Int) ∧
        ∀ q, p0 ≤ q → q < p → matchAtB H ns q = false) := by
  intro k
  induction k with
  | zero =>
    intro p0 hk
    left
    constructor
    · rw [tryFrom_step, if_neg (by omega)]
    · intro q hq
      cases ns with
      | nil => rfl
      | cons c cs =>
        simp only [matchAtB]
        have : ¬ q < H.length := by omega
        simp [this]
  | succ k ih =>
    intro p0 hk
    by_cases hlt : p0 < H.length
    · by_cases hm : matchAtB H ns p0 = true
      · right
        refine ⟨p0, Nat.le_refl _, hm, ?_, ?_⟩
        · rw [tryFrom_step, if_pos hlt, hm, if_pos rfl]
        · intro q hq1 hq2
          omega
      · have hmf : matchAtB H ns p0 = false := by
          cases h : matchAtB H ns p0
          · rfl
          · exact absurd h hm
        rcases ih (p0 + 1) (by omega) with ⟨h1, h2⟩ | ⟨p, hp1, hp2, hp3, hp4⟩
        · left
          constructor
          · rw [tryFrom_step, if_pos hlt, hmf, if_neg Bool.false_ne_true, h1]
          · intro q hq
            rcases Nat.eq_or_lt_of_le hq with rfl | hlt'
            · exact hmf
            · exact h2 q (by omega)
        · right
          refine ⟨p, by omega, hp2, ?_, ?_⟩
          · rw [tryFrom_step, if_pos hlt, hmf, if_neg Bool.false_ne_true, hp3]
          · intro q hq1 hq2
            rcases Nat.eq_or_lt_of_le hq1 with rfl | hlt'
            · exact hmf
            · exact hp4 q (by omega) hq2
    · left
      constructor
      · rw [tryFrom_step, if_neg hlt]
      · intro q hq
        cases ns with
        | nil => rfl
        | cons c cs =>
          simp only [matchAtB]
          have : ¬ q < H.length := by omega
          simp [this]

/-! ### Measure decrease lemmas for each loop transition -/

theorem drop_cons_getD (H : List Char) (h : Nat) (hh : h < H.length) :
    H.drop h = H.getD h ' ' :: H.drop (h + 1) := by
  rw [List.getD_eq_getElem _ _ hh]
  exact List.drop_eq_getElem_cons hh

theorem wsMeasure_skip_none (H : List Char) (h : Nat) (hh : h < H.length) :
    wsMeasure H (h + 1) none < wsMeasure H h none := by
  simp only [wsMeasure, scanBase, psBit]
  exact mul_add_lt_of_lt (by omega) (by omega)

theorem wsMeasure_skip_some (H : List Char) (h p : Nat) (hh : h < H.length) :
    wsMeasure H (h + 1) (some p) < wsMeasure H h (some p) := by
  simp only [wsMeasure, scanBase, psBit]
  exact Nat.add_lt_add_left (by omega) _

theorem wsMeasure_start_match (H : List Char) (h : Nat) (hh : h < H.length) :
    wsMeasure H (h + 1) (some h) < wsMeasure H h none := by
  simp only [wsMeasure, scanBase, psBit]
  exact mul_add_lt_of_lt (by omega) (by omega)

theorem wsMeasure_backtrack (H : List Char) (h p : Nat) :
    wsMeasure H (p + 1) none < wsMeasure H h (some p) := by
  simp only [wsMeasure, scanBase, psBit]
  exact mul_add_lt_of_lt (by omega) (by omega)

/-! ### The scan computes `scanGoal` (needle with non-whitespace head) -/

theorem wsLoop_eq_scanGoal (H : List Char) (c0 : Char) (N0 : List Char)
    (hc0 : isSpace c0 = false) :
    ∀ fuel h n ps so, ScanInv H (c0 :: N0) h n ps → wsMeasure H h ps < fuel →
      wsLoop H (c0 :: N0) fuel h n ps so = scanGoal H (c0 :: N0) h n ps := by
  have hskip0 : skipWs (c0 :: N0) 0 = 0 := by
    rw [skipWs_step, if_neg]
    intro hcond
    have h2 := hcond.2
    rw [List.getD_cons_zero, hc0] at h2
    exact Bool.false_ne_true h2
  have hns : (c0 :: N0).filter (fun c => !isSpace c) =
      c0 :: N0.filter (fun c => !isSpace c) :=
    List.filter_cons_of_pos (by simp [hc0])
  have hlenN : (c0 :: N0).length = N0.length + 1 := by simp
  intro fuel
  induction fuel with
  | zero =>
    intro h n ps so _ hm
    exact absurd hm (Nat.not_lt_zero _)
  | succ fuel ih =>
    intro h n ps so hinv hm
    cases ps with
    | none =>
      have hn0 : n = 0 := hinv
      subst hn0
      rw [wsLoop]
      by_cases hh : h < H.length
      · rw [if_pos hh]
        by_cases hws : isSpace (H.getD h ' ') = true
        · -- haystack whitespace, no match in progress
          rw [if_pos hws]
          rw [ih (h + 1) 0 none _ (by simp [ScanInv])
            (Nat.lt_of_lt_of_le (wsMeasure_skip_none H h hh) (Nat.lt_succ_iff.mp hm))]
          simp only [scanGoal]
          have hma : matchAtB H ((c0 :: N0).filter (fun c => !isSpace c)) h = false := by
            have hcne : ¬ (H.getD h ' ' = c0) := by
              intro heq
              rw [heq, hc0] at hws
              exact Bool.false_ne_true hws
            rw [hns]
            simp only [matchAtB]
            rw [decide_eq_false hcne]
            simp
          rw [tryFrom_step H _ h, if_pos hh, hma]
          simp
        · have hwsf : isSpace (H.getD h ' ') = false := by simpa using hws
          rw [if_neg hws, hskip0]
          rw [if_neg (by omega)]
          rw [List.getD_cons_zero]
          by_cases hcmp : H.getD h ' ' = c0
          · rw [if_pos hcmp]
            have harg : (if (0 : Nat) = 0 then some h else none) = some h := by simp
            rw [harg]
            have hinv' : ScanInv H (c0 :: N0) (h + 1) (0 + 1) (some h) := by
              refine ⟨by omega, by omega, by omega, by omega, ?_⟩
              have h1 : h + 1 - h = 1 := by omega
              rw [h1, drop_cons_getD H h hh]
              simp only [List.take_succ_cons, List.take_zero]
              rw [List.filter_cons_of_pos (by simpa using hwsf)]
              simp only [List.take_succ_cons, List.take_zero, List.filter_nil]
              rw [List.filter_cons_of_pos (by simp [hc0]), hcmp]
              simp
            rw [ih (h + 1) (0 + 1) (some h) _ hinv'
              (Nat.lt_of_lt_of_le (wsMeasure_start_match H h hh) (Nat.lt_succ_iff.mp hm))]
            simp only [scanGoal]
            have hdrop1 : (c0 :: N0).drop (0 + 1) = N0 := by simp
            rw [hdrop1]
            rw [tryFrom_step H _ h, if_pos hh]
            have hma : matchAtB H ((c0 :: N0).filter (fun c => !isSpace c)) h =
                skipMatchB H (h + 1) (N0.filter (fun c => !isSpace c)) := by
              rw [hns]
              simp only [matchAtB]
              rw [decide_eq_true hh, decide_eq_true hcmp]
              simp
            rw [hma]
          · rw [if_neg hcmp]
            rw [ih (h + 1) 0 none _ (by simp [ScanInv])
              (Nat.lt_of_lt_of_le (wsMeasure_skip_none H h hh) (Nat.lt_succ_iff.mp hm))]
            simp only [scanGoal]
            have hma : matchAtB H ((c0 :: N0).filter (fun c => !isSpace c)) h = false := by
              rw [hns]
              simp only [matchAtB]
              rw [decide_eq_false hcmp]
              simp
            rw [tryFrom_step H _ h, if_pos hh, hma]
            simp
      · rw [if_neg hh, hskip0, if_neg (by omega)]
        simp only [scanGoal]
        rw [tryFrom_step H _ h, if_neg hh]
    | some p =>
      obtain ⟨hn1, hnle, hph, hhle, hslice⟩ := hinv
      rw [wsLoop]
      by_cases hh : h < H.length
      · rw [if_pos hh]
        by_cases hws : isSpace (H.getD h ' ') = true
        · -- haystack whitespace during a partial match
          rw [if_pos hws]
          have hinv' : ScanInv H (c0 :: N0) (h + 1) n (some p) := by
            refine ⟨hn1, hnle, by omega, by omega, ?_⟩
            rw [slice_take_succ H p h (by omega) hh, List.filter_append]
            rw [List.filter_cons_of_neg (by simpa using hws)]
            simpa using hslice
          rw [ih (h + 1) n (some p) _ hinv'
            (Nat.lt_of_lt_of_le (wsMeasure_skip_some H h p hh) (Nat.lt_succ_iff.mp hm))]
          simp only [scanGoal]
          have hsm : skipMatchB H (h + 1) (((c0 :: N0).drop n).filter (fun c => !isSpace c)) =
              skipMatchB H h (((c0 :: N0).drop n).filter (fun c => !isSpace c)) := by
            cases hrest : ((c0 :: N0).drop n).filter (fun c => !isSpace c) with
            | nil => rfl
            | cons c cs =>
              rw [skipMatchB_step H h c cs, if_pos hh, if_pos hws]
          rw [hsm]
        · have hwsf : isSpace (H.getD h ' ') = false := by simpa using hws
          rw [if_neg hws]
          by_cases hnl : skipWs (c0 :: N0) n = (c0 :: N0).length
          · rw [if_pos hnl]
            have hrest : ((c0 :: N0).drop n).filter (fun c => !isSpace c) = [] := by
              rw [← filter_drop_skipWs (c0 :: N0) n, hnl]
              simp
            simp [scanGoal, hrest, skipMatchB, psVal]
          · rw [if_neg hnl]
            have hn'lt : skipWs (c0 :: N0) n < (c0 :: N0).length :=
              Nat.lt_of_le_of_ne (skipWs_le_length _ n hnle) hnl
            have hstop := skipWs_stop (c0 :: N0) n hn'lt
            have hrest : ((c0 :: N0).drop n).filter (fun c => !isSpace c) =
                (c0 :: N0).getD (skipWs (c0 :: N0) n) ' ' ::
                  ((c0 :: N0).drop (skipWs (c0 :: N0) n + 1)).filter (fun c => !isSpace c) := by
              rw [← filter_drop_skipWs (c0 :: N0) n,
                drop_cons_getD (c0 :: N0) _ hn'lt,
                List.filter_cons_of_pos (by simpa using hstop)]
            by_cases hcmp : H.getD h ' ' = (c0 :: N0).getD (skipWs (c0 :: N0) n) ' '
            · rw [if_pos hcmp]
              have hn'0 : ¬ (skipWs (c0 :: N0) n = 0) := by
                have := skipWs_ge (c0 :: N0) n
                omega
              rw [if_neg hn'0]
              have hinv' : ScanInv H (c0 :: N0) (h + 1) (skipWs (c0 :: N0) n + 1) (some p) := by
                refine ⟨by omega, by omega, by omega, by omega, ?_⟩
                rw [slice_take_succ H p h (by omega) hh, List.filter_append]
                rw [List.filter_cons_of_pos (by simpa using hwsf)]
                have htk : (c0 :: N0).take (skipWs (c0 :: N0) n + 1) =
                    (c0 :: N0).take (skipWs (c0 :: N0) n) ++
                      [(c0 :: N0).getD (skipWs (c0 :: N0) n) ' '] := by
                  have := slice_take_succ (c0 :: N0) 0 (skipWs (c0 :: N0) n)
                    (Nat.zero_le _) hn'lt
                  simpa using this
                rw [htk, List.filter_append,
                  List.filter_cons_of_pos (by simpa using hstop)]
                rw [filter_take_skipWs, hslice, hcmp]
              rw [ih (h + 1) (skipWs (c0 :: N0) n + 1) (some p) _ hinv'
                (Nat.lt_of_lt_of_le (wsMeasure_skip_some H h p hh) (Nat.lt_succ_iff.mp hm))]
              simp only [scanGoal]
              have hsm : skipMatchB H h (((c0 :: N0).drop n).filter (fun c => !isSpace c)) =
                  skipMatchB H (h + 1)
                    (((c0 :: N0).drop (skipWs (c0 :: N0) n + 1)).filter (fun c => !isSpace c)) := by
                rw [hrest, skipMatchB_step, if_pos hh, if_neg hws]
                rw [decide_eq_true hcmp]
                simp
              rw [hsm]
            · rw [if_neg hcmp]
              rw [ih (p + 1) 0 none _ (by simp [ScanInv])
                (Nat.lt_of_lt_of_le (wsMeasure_backtrack H h p) (Nat.lt_succ_iff.mp hm))]
              simp only [scanGoal]
              have hsm : skipMatchB H h (((c0 :: N0).drop n).filter (fun c => !isSpace c)) =
                  false := by
                rw [hrest, skipMatchB_step, if_pos hh, if_neg hws]
                rw [decide_eq_false hcmp]
                simp
              rw [hsm]
              simp
      · -- scan ran off the end of the haystack during a partial match
        rw [if_neg hh]
        have hhe : h = H.length := by omega
        by_cases hnl : skipWs (c0 :: N0) n = (c0 :: N0).length
        · rw [if_pos hnl]
          have hrest : ((c0 :: N0).drop n).filter (fun c => !isSpace c) = [] := by
            rw [← filter_drop_skipWs (c0 :: N0) n, hnl]
            simp
          simp [scanGoal, hrest, skipMatchB, psVal]
        · rw [if_neg hnl]
          have hn'lt : skipWs (c0 :: N0) n < (c0 :: N0).length :=
            Nat.lt_of_le_of_ne (skipWs_le_length _ n hnle) hnl
          have hstop := skipWs_stop (c0 :: N0) n hn'lt
          have hrest : ((c0 :: N0).drop n).filter (fun c => !isSpace c) =
              (c0 :: N0).getD (skipWs (c0 :: N0) n) ' ' ::
                ((c0 :: N0).drop (skipWs (c0 :: N0) n + 1)).filter (fun c => !isSpace c) := by
            rw [← filter_drop_skipWs (c0 :: N0) n,
              drop_cons_getD (c0 :: N0) _ hn'lt,
              List.filter_cons_of_pos (by simpa using hstop)]
          have hsmf : skipMatchB H h (((c0 :: N0).drop n).filter (fun c => !isSpace c)) =
              false := by
            rw [hrest, skipMatchB_step, if_neg hh]
          simp only [scanGoal, hsmf]
          rw [if_neg Bool.false_ne_true]
          -- the haystack from p on has too few non-whitespace characters
          -- for any later match, so the reference scan also yields -1
          have hdfull : (H.drop p).filter (fun c => !isSpace c) =
              ((c0 :: N0).take n).filter (fun c => !isSpace c) := by
            rw [← hslice, hhe]
            congr 1
            exact (List.take_of_length_le (by simp)).symm
          have hsplitns : (c0 :: N0).filter (fun c => !isSpace c) =
              ((c0 :: N0).take n).filter (fun c => !isSpace c) ++
                ((c0 :: N0).drop n).filter (fun c => !isSpace c) := by
            rw [← List.filter_append, List.take_append_drop]
          have hshort : ((H.drop p).filter (fun c => !isSpace c)).length <
              ((c0 :: N0).filter (fun c => !isSpace c)).length := by
            rw [hdfull, hsplitns, List.length_append, hrest]
            simp
          have hnsws : ∀ c ∈ (c0 :: N0).filter (fun c => !isSpace c), isSpace c = false := by
            intro c hc
            simpa using List.of_mem_filter hc
          rw [tryFrom_eq_neg_one H _ (H.length - (p + 1)) (p + 1) (Nat.le_refl _)
            (fun q hq => matchAtB_false_of_short H _ hnsws p q (by omega) hshort)]

/-- For a needle whose first character is not whitespace, the source's
scan equals the reference linear scan over the collapsed needle. -/
theorem find_eq_tryFrom (H : List Char) (c0 : Char) (N0 : List Char) (so : Nat)
    (hc0 : isSpace c0 = false) :
    find_ignoring_whitespace H (c0 :: N0) so =
      tryFrom H ((c0 :: N0).filter (fun c => !isSpace c)) so := by
  unfold find_ignoring_whitespace
  rw [if_neg (by simp)]
  have hmb : wsMeasure H so none < find_fuel H := by
    simp only [wsMeasure, scanBase, psBit, find_fuel]
    have h1 : (2 * ((H.length + 1) - so) + 0) * (H.length + 1) + (H.length - so) <
        (2 * (H.length + 1) + 1) * (H.length + 1) + (H.length + 1) :=
      mul_add_lt_of_lt (by omega) (by omega)
    linarith
  have h := wsLoop_eq_scanGoal H c0 N0 hc0 (find_fuel H) so 0 none so (by simp [ScanInv]) hmb
  rw [h]
  rfl

/-- For a needle whose first character IS whitespace, `potential_start` is
never assigned, so the scan always reports "not found". -/
theorem wsLoop_ws_head (H : List Char) (c0 : Char) (N0 : List Char)
    (hc0 : isSpace c0 = true) :
    ∀ fuel h n so, wsLoop H (c0 :: N0) fuel h n none so = -1 := by
  intro fuel
  induction fuel with
  | zero => intro h n so; rfl
  | succ fuel ih =>
    intro h n so
    rw [wsLoop]
    by_cases hh : h < H.length
    · rw [if_pos hh]
      by_cases hws : isSpace (H.getD h ' ') = true
      · rw [if_pos hws]
        exact ih (h + 1) n _
      · rw [if_neg hws]
        have hn'pos : ¬ (skipWs (c0 :: N0) n = 0) := by
          intro h0
          have hge := skipWs_ge (c0 :: N0) n
          have hn0 : n = 0 := by omega
          subst hn0
          rw [skipWs_step] at h0
          by_cases hcnd : 0 < (c0 :: N0).length ∧ isSpace ((c0 :: N0).getD 0 ' ') = true
          · rw [if_pos hcnd] at h0
            have := skipWs_ge (c0 :: N0) (0 + 1)
            omega
          · exact hcnd ⟨by simp, by simpa using hc0⟩
        by_cases hnl : skipWs (c0 :: N0) n = (c0 :: N0).length
        · rw [if_pos hnl]
          rfl
        · rw [if_neg hnl]
          by_cases hcmp : H.getD h ' ' = (c0 :: N0).getD (skipWs (c0 :: N0) n) ' '
          · rw [if_pos hcmp, if_neg hn'pos]
            exact ih (h + 1) _ _
          · rw [if_neg hcmp]
            exact ih (h + 1) 0 _
    · rw [if_neg hh]
      by_cases hnl : skipWs (c0 :: N0) n = (c0 :: N0).length
      · rw [if_pos hnl]
        rfl
      · rw [if_neg hnl]

theorem find_ws_head (H : List Char) (c0 : Char) (N0 : List Char) (so : Nat)
    (hc0 : isSpace c0 = true) :
    find_ignoring_whitespace H (c0 :: N0) so = -1 := by
  unfold find_ignoring_whitespace
  rw [if_neg (by simp)]
  exact wsLoop_ws_head H c0 N0 hc0 (find_fuel H) so 0 so

/-- The specification-side match predicate coincides with the executable
one over the collapsed needle. -/
theorem matchSpec_iff_matchAtB (H N : List Char) (p : Nat) :
    matchSpec H N p ↔ matchAtB H (N.filter (fun c => !isSpace c)) p = true := by
  constructor
  · rintro ⟨hp, hws, hne, q, hpq, hqle, hfil⟩
    cases hcase : N.filter (fun c => !isSpace c) with
    | nil => exact absurd hcase hne
    | cons c cs =>
      rw [hcase] at hfil
      have hplt : p < q := by
        by_contra hle
        have hqp : q = p := by omega
        subst hqp
        simp [pySlice] at hfil
      have hsplit : pySlice H p q = H.getD p ' ' :: (H.drop (p + 1)).take (q - (p + 1)) := by
        unfold pySlice
        rw [drop_cons_getD H p hp]
        have hq : q - p = (q - (p + 1)) + 1 := by omega
        rw [hq, List.take_succ_cons]
      rw [hsplit, List.filter_cons_of_pos (by simpa using hws)] at hfil
      rw [List.cons.injEq] at hfil
      obtain ⟨hc, hrest⟩ := hfil
      simp only [matchAtB]
      rw [decide_eq_true hp, decide_eq_true hc]
      simp only [Bool.true_and]
      exact skipMatchB_of_exists H (H.length - (p + 1)) (p + 1) cs q (Nat.le_refl _)
        (by omega) hqle hrest
  · intro hmb
    cases hcase : N.filter (fun c => !isSpace c) with
    | nil =>
      rw [hcase] at hmb
      simp [matchAtB] at hmb
    | cons c cs =>
      rw [hcase] at hmb
      simp only [matchAtB] at hmb
      rw [Bool.and_eq_true, Bool.and_eq_true] at hmb
      obtain ⟨⟨hplt', hceq'⟩, hsm⟩ := hmb
      have hp : p < H.length := of_decide_eq_true hplt'
      have hceq : H.getD p ' ' = c := of_decide_eq_true hceq'
      have hcmem : c ∈ N.filter (fun c => !isSpace c) := by
        rw [hcase]
        exact List.mem_cons_self _ _
      have hcws : isSpace c = false := by simpa using List.of_mem_filter hcmem
      obtain ⟨q, hq1, hq2, hq3⟩ := skipMatchB_exists H (H.length - (p + 1)) (p + 1) cs
        (Nat.le_refl _) (by omega) hsm
      refine ⟨hp, by rw [hceq]; exact hcws, by rw [hcase]; simp, q, by omega, hq2, ?_⟩
      rw [hcase]
      unfold pySlice
      rw [drop_cons_getD H p hp]
      have hq : q - p = (q - (p + 1)) + 1 := by omega
      rw [hq, List.take_succ_cons,
        List.filter_cons_of_pos (by rw [hceq]; simp [hcws]), hq3, hceq]

/-- Claim C5, amended: `_find_ignoring_whitespace` returns `start_offset`
for an empty needle.  For a non-empty needle whose first character is not
whitespace, it returns the index in the original (non-collapsed) haystack
of the first whitespace-insensitive match at or after `start_offset`, and
`-1` when no match exists.  Contrary to the claim as stated, a needle
beginning with a whitespace character is never found: the function returns
`-1` even when a whitespace-insensitive match exists
(see `find_ignoring_whitespace_leading_ws_cex`). -/
theorem find_ignoring_whitespace_correct (H N : List Char) (so : Nat) :
    (N = [] → find_ignoring_whitespace H N so = (so : Int)) ∧
    (∀ c0 N0, N = c0 :: N0 → isSpace c0 = false →
      ((∃ p, so ≤ p ∧ matchSpec H N p) →
        ∃ p, so ≤ p ∧ matchSpec H N p ∧ find_ignoring_whitespace H N so = (p : Int) ∧
          ∀ q, so ≤ q → q < p → ¬ matchSpec H N q) ∧
      ((∀ p, so ≤ p → ¬ matchSpec H N p) → find_ignoring_whitespace H N so = -1)) ∧
    (∀ c0 N0, N = c0 :: N0 → isSpace c0 = true →
      find_ignoring_whitespace H N so = -1) := by
  refine ⟨?_, ?_, ?_⟩
  · intro hN
    subst hN
    unfold find_ignoring_whitespace
    rw [if_pos rfl]
  · intro c0 N0 hN hc0
    subst hN
    have hft := find_eq_tryFrom H c0 N0 so hc0
    rcases tryFrom_dichotomy H ((c0 :: N0).filter (fun c => !isSpace c))
        (H.length - so) so (Nat.le_refl _) with ⟨h1, h2⟩ | ⟨p, hp1, hp2, hp3, hp4⟩
    · constructor
      · rintro ⟨p, hple, hpm⟩
        exfalso
        rw [matchSpec_iff_matchAtB] at hpm
        rw [h2 p hple] at hpm
        exact Bool.false_ne_true hpm
      · intro _
        rw [hft, h1]
    · constructor
      · intro _
        refine ⟨p, hp1, (matchSpec_iff_matchAtB H _ p).mpr hp2, by rw [hft, hp3], ?_⟩
        intro q hq1 hq2 hqm
        rw [matchSpec_iff_matchAtB] at hqm
        rw [hp4 q hq1 hq2] at hqm
        exact Bool.false_ne_true hqm
      · intro hall
        exact absurd ((matchSpec_iff_matchAtB H _ p).mpr hp2) (hall p hp1)
  · intro c0 N0 hN hc0
    subst hN
    exact find_ws_head H c0 N0 so hc0

/-- Witness for `find_ignoring_whitespace_correct`: the empty needle
returns `start_offset` (here 5) on `"abc"`. -/
theorem find_ignoring_whitespace_correct_witness :
    find_ignoring_whitespace "abc".data [] 5 = 5 :=
  (find_ignoring_whitespace_correct "abc".data [] 5).1 rfl

/-- Counterexample to claim C5: A whitespace-insensitive match of the needle
`" a"` exists at position 0 of the haystack `"a"` (so the claim as stated
requires the search to return 0), yet `_find_ignoring_whitespace` returns
`-1`: a needle that begins with whitespace is never found. -/
theorem find_ignoring_whitespace_leading_ws_cex :
    (∃ p, 0 ≤ p ∧ matchSpec "a".data " a".data p) ∧
      find_ignoring_whitespace "a".data " a".data 0 = -1 ∧
      ¬ find_ignoring_whitespace "a".data " a".data 0 = (0 : Int) := by
  refine ⟨⟨0, Nat.le_refl _, ?_, ?_, ?_, 1, ?_, ?_, ?_⟩, by decide, by decide⟩
  · decide
  · decide
  · decide
  · decide
  · decide
  · decide

/-- Claim C10: For every haystack and start offset, a non-empty needle
consisting only of whitespace characters is never treated as trivially
matching: `_find_ignoring_whitespace` returns the not-found value `-1`
(unlike the empty needle, which returns `start_offset`). -/
theorem find_whitespace_only_needle (H N : List Char) (so : Nat)
    (hne : N ≠ []) (hws : ∀ c ∈ N, isSpace c = true) :
    find_ignoring_whitespace H N so = -1 := by
  cases N with
  | nil => exact absurd rfl hne
  | cons c0 N0 => exact find_ws_head H c0 N0 so (hws c0 (List.mem_cons_self _ _))

/-- Witness for `find_whitespace_only_needle`: needle `"  "` on haystack
`"abc"` yields `-1`, while the empty needle yields `start_offset`. -/
theorem find_whitespace_only_needle_witness :
    find_ignoring_whitespace "abc".data "  ".data 0 = -1 ∧
      find_ignoring_whitespace "abc".data "".data 0 = 0 :=
  ⟨find_whitespace_only_needle "abc".data "  ".data 0 (by decide)
      (by intro c hc; fin_cases hc <;> decide),
    by decide⟩

/-! ## PDF document model for `split_text_by_bookmarks`
(PdfEditor.py lines 66-274) -/

/-- A node of the PyPDF2 outline: either a `Destination` leaf (title plus
the page index resolved by `get_destination_page_number`; `none` models a
destination whose page number cannot be determined or is `None`, which the
source skips with a warning) or a nested list of sub-bookmarks. -/
inductive OutlineItem where
  | leaf (title : List Char) (page : Option Int)
  | group (items : List OutlineItem)

/-- The abstracted document: page count, per-page extracted text
(`page.extract_text()`, `[]` for pages yielding no text) and the outline
(`reader.outline`; `[]` models a missing or empty — falsy — outline). -/
structure PdfDoc where
  numPages : Nat
  pageText : Nat → List Char
  outline : List OutlineItem

/-- One record `(title, page_index, level)` collected by `_get_bookmarks`. -/
structure BookmarkInfo where
  title : List Char
  page : Int
  level : Nat
deriving DecidableEq, Repr

instance : Inhabited BookmarkInfo := ⟨⟨[], 0, 0⟩⟩

mutual

/-- Model of `_get_bookmarks` on one outline item: a nested list recurses with
`level + 1`; a leaf contributes its record when its page resolves and is
skipped otherwise. -/
def get_bookmarks_item : OutlineItem → Nat → List BookmarkInfo
  | OutlineItem.leaf title page, level =>
    match page with
    | some pg => [⟨title, pg, level⟩]
    | none => []
  | OutlineItem.group sub, level => get_bookmarks sub (level + 1)

/-- Model of `_get_bookmarks` on a list of outline items, in order. -/
def get_bookmarks : List OutlineItem → Nat → List BookmarkInfo
  | [], _ => []
  | item :: rest, level => get_bookmarks_item item level ++ get_bookmarks rest level

end

/-- Model of `sorted(all_bookmarks_info, key=lambda item: item[1])`: stable sort by
target page, ascending. -/
def sortBookmarks (infos : List BookmarkInfo) : List BookmarkInfo :=
  infos.mergeSort (fun a b => a.page ≤ b.page)

/-- The `end_page` value for the `i`-th sorted bookmark: the next entry's start page,
or the total page count for the last entry. -/
def chapterEndPage (doc : PdfDoc) (sorted : List BookmarkInfo) (i : Nat) : Int :=
  if i + 1 < sorted.length then (sorted.getD (i + 1) default).page
  else (doc.numPages : Int)

/-- The `next_title` value for the `i`-th sorted bookmark (`""` for the last one). -/
def chapterNextTitle (sorted : List BookmarkInfo) (i : Nat) : List Char :=
  if i + 1 < sorted.length then (sorted.getD (i + 1) default).title else []

/-- Concatenation of the extracted text of pages `[a, b)`; pages yielding
empty text contribute nothing. -/
def concatPages (doc : PdfDoc) (a b : Nat) : List Char :=
  ((List.range' a (b - a)).map doc.pageText).flatten

/-- The `chapter_text` value for the `i`-th sorted bookmark: empty when `start_page`
is outside `[0, len(reader.pages))`; otherwise the concatenation of pages
`[start_page, page_extraction_upper_bound)` where the upper bound is
`min(end_page + 1, len(reader.pages))` — i.e. including the page at
`end_page` (the source deliberately extracts through the next bookmark's
start page). -/
def chapterRawText (doc : PdfDoc) (sorted : List BookmarkInfo) (i : Nat) : List Char :=
  if 0 ≤ (sorted.getD i default).page ∧
      (sorted.getD i default).page < (doc.numPages : Int) then
    if (sorted.getD i default).page <
        min (chapterEndPage doc sorted i + 1) (doc.numPages : Int) then
      concatPages doc (sorted.getD i default).page.toNat
        (min (chapterEndPage doc sorted i + 1) (doc.numPages : Int)).toNat
    else []
  else []

/-- The marker-based refinement block (PdfEditor.py lines 239-262): if the
chapter's raw text is non-empty and the chapter's own title is found by
the whitespace-insensitive search, crop from the found position plus the
original title's length, up to the next title's match position (when a
next title exists and is found) or to the end of the text; if the title is
not found, keep the raw text. -/
def refineChapterText (chapterText title nextTitle : List Char) : List Char :=
  if chapterText = [] then chapterText
  else
    if find_ignoring_whitespace chapterText title 0 ≠ -1 then
      -- start_index = start_pos + len(title); start_pos ≥ 0 here
      if nextTitle ≠ [] then
        if find_ignoring_whitespace chapterText nextTitle
            (find_ignoring_whitespace chapterText title 0 + title.length).toNat ≠ -1 then
          pySlice chapterText
            (find_ignoring_whitespace chapterText title 0 + title.length).toNat
            (find_ignoring_whitespace chapterText nextTitle
              (find_ignoring_whitespace chapterText title 0 + title.length).toNat).toNat
        else
          chapterText.drop
            (find_ignoring_whitespace chapterText title 0 + title.length).toNat
      else
        chapterText.drop
          (find_ignoring_whitespace chapterText title 0 + title.length).toNat
    else chapterText

/-- The `{"text": ..., "level": ...}` value stored for the `i`-th sorted
bookmark: the refined text, stripped, with the entry's level. -/
def chapterValue (doc : PdfDoc) (sorted : List BookmarkInfo) (i : Nat) :
    List Char × Nat :=
  (pyStrip (refineChapterText (chapterRawText doc sorted i)
      (sorted.getD i default).title (chapterNextTitle sorted i)),
    (sorted.getD i default).level)

/-- Model of the `OrderedDict` assignment `chapters[title] = value`: an existing key is
overwritten in place (keeping its original position); a new key is
appended. -/
def odInsert (m : List (List Char × List Char × Nat)) (k : List Char)
    (v : List Char × Nat) : List (List Char × List Char × Nat) :=
  if m.any (fun e => e.1 = k) then
    m.map (fun e => if e.1 = k then (k, v.1, v.2) else e)
  else m ++ [(k, v.1, v.2)]

/-- The chapter-emission loop over the sorted bookmark list. -/
def buildChapters (doc : PdfDoc) (sorted : List BookmarkInfo) :
    List (List Char × List Char × Nat) :=
  (List.range sorted.length).foldl
    (fun acc i => odInsert acc (sorted.getD i default).title (chapterValue doc sorted i)) []

/-- The fallback chapter title used when the document has no outline. -/
def fallbackTitle : List Char := "Full Text (No Bookmarks)".data

/-- Concatenated text of the whole document (fallback path). -/
def docFullText (doc : PdfDoc) : List Char :=
  ((List.range doc.numPages).map doc.pageText).flatten

/-- Model of `split_text_by_bookmarks` (file-handling and exception paths aside):
`none` models returning `None`.  With no outline, a single fallback
chapter (or `None` when no text extracts); with an outline, `None` when no
bookmark resolves, otherwise the chapters keyed by title in page-sorted
emission order. -/
def split_text_by_bookmarks (doc : PdfDoc) :
    Option (List (List Char × List Char × Nat)) :=
  if doc.outline.isEmpty then
    if docFullText doc ≠ [] then some [(fallbackTitle, docFullText doc, 0)]
    else none
  else
    if get_bookmarks doc.outline 0 = [] then none
    else some (buildChapters doc (sortBookmarks (get_bookmarks doc.outline 0)))

/-! ## C8: outline-absent fallback -/

/-- Claim C8: For every document with no outline whose pages yield non-empty
extractable text, `split_text_by_bookmarks` does not fail: it returns
exactly one chapter titled with the documented fallback label
`"Full Text (No Bookmarks)"`, at level 0, whose text is the concatenation
of all pages' extracted text. -/
theorem split_no_bookmarks_fallback (doc : PdfDoc) (hout : doc.outline = [])
    (htext : docFullText doc ≠ []) :
    split_text_by_bookmarks doc = some [(fallbackTitle, docFullText doc, 0)] := by
  unfold split_text_by_bookmarks
  rw [hout]
  simp [htext]

/-- Witness for `split_no_bookmarks_fallback`: one page with text
`"hello"` and no outline. -/
theorem split_no_bookmarks_fallback_witness :
    split_text_by_bookmarks ⟨1, fun _ => "hello".data, []⟩ =
      some [(fallbackTitle, "hello".data, 0)] := by
  rw [split_no_bookmarks_fallback ⟨1, fun _ => "hello".data, []⟩ rfl (by decide)]
  decide

/-! ## C7: range resolution over the page-sorted entries -/

theorem pageLe_trans : ∀ a b c : BookmarkInfo,
    (fun a b : BookmarkInfo => (a.page ≤ b.page : Bool)) a b →
    (fun a b : BookmarkInfo => (a.page ≤ b.page : Bool)) b c →
    (fun a b : BookmarkInfo => (a.page ≤ b.page : Bool)) a c := by
  intro a b c hab hbc
  simp only [decide_eq_true_eq] at hab hbc ⊢
  omega

theorem pageLe_total : ∀ a b : BookmarkInfo,
    ((fun a b : BookmarkInfo => (a.page ≤ b.page : Bool)) a b ||
      (fun a b : BookmarkInfo => (a.page ≤ b.page : Bool)) b a) = true := by
  intro a b
  simp only [Bool.or_eq_true, decide_eq_true_eq]
  omega

/-- Claim C7: The range-resolution step sorts the collected entries by
`target_page` ascending, stably (ties keep their original relative order:
any correctly ordered pair of entries survives as a sublist), and assigns
entry `i` the start page `target_page[i]` with end page `target_page[i+1]`
for non-last entries or the total page count for the last entry;
concretely, entries at pages `[5, 2, 9]` sort to `[2, 5, 9]` with ranges
`[2,5), [5,9), [9,total_pages)` (here `total_pages = 12`). -/
theorem sortBookmarks_range_resolution (doc : PdfDoc) (infos : List BookmarkInfo) :
    (sortBookmarks infos).Pairwise (fun a b => a.page ≤ b.page) ∧
    (sortBookmarks infos).Perm infos ∧
    (∀ a b : BookmarkInfo, [a, b].Sublist infos → a.page ≤ b.page →
      [a, b].Sublist (sortBookmarks infos)) ∧
    (∀ i, chapterEndPage doc (sortBookmarks infos) i =
      if i + 1 < (sortBookmarks infos).length
      then ((sortBookmarks infos).getD (i + 1) default).page
      else (doc.numPages : Int)) ∧
    ((sortBookmarks [⟨"a".data, 5, 0⟩, ⟨"b".data, 2, 0⟩, ⟨"c".data, 9, 0⟩]).map
        (fun b => b.page) = [2, 5, 9] ∧
      (List.range 3).map (fun i =>
          (((sortBookmarks [⟨"a".data, 5, 0⟩, ⟨"b".data, 2, 0⟩, ⟨"c".data, 9, 0⟩]).getD
              i default).page,
            chapterEndPage ⟨12, fun _ => [], []⟩
              (sortBookmarks [⟨"a".data, 5, 0⟩, ⟨"b".data, 2, 0⟩, ⟨"c".data, 9, 0⟩]) i)) =
        [(2, 5), (5, 9), (9, 12)]) := by
  refine ⟨?_, ?_, ?_, ?_, ?_⟩
  · have h := List.sorted_mergeSort pageLe_trans pageLe_total infos
    exact h.imp (fun hab => by simpa using hab)
  · exact List.mergeSort_perm infos _
  · intro a b hsub hle
    exact List.pair_sublist_mergeSort pageLe_trans pageLe_total (by simpa using hle) hsub
  · intro i
    rfl
  · have hsort : sortBookmarks [⟨"a".data, 5, 0⟩, ⟨"b".data, 2, 0⟩, ⟨"c".data, 9, 0⟩] =
        [⟨"b".data, 2, 0⟩, ⟨"a".data, 5, 0⟩, ⟨"c".data, 9, 0⟩] := by
      simp [sortBookmarks, List.mergeSort]
    rw [hsort]
    constructor
    · rfl
    · rfl

/-- Witness for `sortBookmarks_range_resolution`: the stability conjunct
applied to the tied-free pair `(page 2, page 9)` of the example list. -/
theorem sortBookmarks_range_resolution_witness :
    [(⟨"b".data, 2, 0⟩ : BookmarkInfo), ⟨"c".data, 9, 0⟩].Sublist
      (sortBookmarks [⟨"a".data, 5, 0⟩, ⟨"b".data, 2, 0⟩, ⟨"c".data, 9, 0⟩]) := by
  refine (sortBookmarks_range_resolution ⟨0, fun _ => [], []⟩
    [⟨"a".data, 5, 0⟩, ⟨"b".data, 2, 0⟩, ⟨"c".data, 9, 0⟩]).2.2.1
    ⟨"b".data, 2, 0⟩ ⟨"c".data, 9, 0⟩ ?_ (by decide)
  decide

/-! ## C4: one chapter per resolvable entry (distinct titles) -/

theorem odInsert_fresh (m : List (List Char × List Char × Nat)) (k : List Char)
    (v : List Char × Nat) (h : ∀ e ∈ m, e.1 ≠ k) :
    odInsert m k v = m ++ [(k, v.1, v.2)] := by
  unfold odInsert
  rw [if_neg]
  intro hc
  rw [List.any_eq_true] at hc
  obtain ⟨e, he, hek⟩ := hc
  exact h e he (of_decide_eq_true hek)

theorem foldl_odInsert_fresh (doc : PdfDoc) (sorted : List BookmarkInfo) :
    ∀ (is : List Nat) (acc : List (List Char × List Char × Nat)),
      (∀ i ∈ is, ∀ e ∈ acc, e.1 ≠ (sorted.getD i default).title) →
      is.Pairwise (fun i j =>
        (sorted.getD i default).title ≠ (sorted.getD j default).title) →
      is.foldl (fun a i =>
          odInsert a (sorted.getD i default).title (chapterValue doc sorted i)) acc =
        acc ++ is.map (fun i => ((sorted.getD i default).title,
          (chapterValue doc sorted i).1, (chapterValue doc sorted i).2)) := by
  intro is
  induction is with
  | nil =>
    intro acc _ _
    simp
  | cons i rest ih =>
    intro acc hfresh hpw
    rw [List.foldl_cons,
      odInsert_fresh _ _ _ (hfresh i (List.mem_cons_self _ _)),
      ih _ ?_ (List.Pairwise.of_cons hpw)]
    · simp
    · intro j hj e he
      rcases List.mem_append.mp he with he' | he'
      · exact hfresh j (List.mem_cons_of_mem _ hj) e he'
      · have hx : e = ((sorted.getD i default).title,
            (chapterValue doc sorted i).1, (chapterValue doc sorted i).2) := by
          simpa using he'
        rw [hx]
        exact (List.rel_of_pairwise_cons hpw hj)

theorem range_map_getD {β : Type} (l : List BookmarkInfo) (f : BookmarkInfo → β) :
    (List.range l.length).map (fun i => f (l.getD i default)) = l.map f := by
  apply List.ext_getElem
  · simp
  · intro i h1 h2
    simp only [List.getElem_map, List.getElem_range]
    congr 1
    rw [List.getD_eq_getElem]

theorem nodup_titles_pairwise (sorted : List BookmarkInfo)
    (hnd : (sorted.map (fun b => b.title)).Nodup) :
    (List.range sorted.length).Pairwise (fun i j =>
      (sorted.getD i default).title ≠ (sorted.getD j default).title) := by
  rw [List.pairwise_iff_getElem]
  intro i j hi hj hij
  simp only [List.length_range] at hi hj
  simp only [List.getElem_range]
  intro heq
  have hmap : (sorted.map (fun b => b.title)).get ⟨i, by simpa using hi⟩ =
      (sorted.map (fun b => b.title)).get ⟨j, by simpa using hj⟩ := by
    simp only [List.get_eq_getElem, List.getElem_map]
    rw [List.getD_eq_getElem _ _ hi, List.getD_eq_getElem _ _ hj] at heq
    exact heq
  have hij2 := (List.Nodup.get_inj_iff hnd).mp hmap
  simp only [Fin.mk.injEq] at hij2
  omega

theorem buildChapters_nodup (doc : PdfDoc) (sorted : List BookmarkInfo)
    (hnd : (sorted.map (fun b => b.title)).Nodup) :
    buildChapters doc sorted = (List.range sorted.length).map
      (fun i => ((sorted.getD i default).title,
        (chapterValue doc sorted i).1, (chapterValue doc sorted i).2)) := by
  unfold buildChapters
  rw [foldl_odInsert_fresh doc sorted _ [] (by intro i _ e he; simp at he)
    (nodup_titles_pairwise sorted hnd)]
  simp

/-- Claim C4, amended: For every document whose outline flattens to `N`
entries with resolvable page targets, *provided the resolvable entries'
titles are pairwise distinct*, `split_text_by_bookmarks` produces exactly
`N` chapters, one per resolvable outline entry, in page-sorted order (not
original tree order), each chapter carrying the level assigned by the
flattening (the entry's nesting depth).  Entries sharing a title are
merged into a single chapter keyed by that title (the later sorted entry's
text and level overwrite the earlier one's, at the earlier position), so
the chapter count drops below `N`
(see `split_text_by_bookmarks_duplicate_title_cex`). -/
theorem split_text_by_bookmarks_one_chapter_per_entry (doc : PdfDoc)
    (hout : doc.outline ≠ [])
    (hinfos : get_bookmarks doc.outline 0 ≠ [])
    (hnodup : ((get_bookmarks doc.outline 0).map (fun b => b.title)).Nodup) :
    ∃ chs, split_text_by_bookmarks doc = some chs ∧
      chs.length = (get_bookmarks doc.outline 0).length ∧
      chs.map (fun c => (c.1, c.2.2)) =
        (sortBookmarks (get_bookmarks doc.outline 0)).map (fun b => (b.title, b.level)) ∧
      (sortBookmarks (get_bookmarks doc.outline 0)).Pairwise
        (fun a b => a.page ≤ b.page) ∧
      (sortBookmarks (get_bookmarks doc.outline 0)).Perm
        (get_bookmarks doc.outline 0) := by
  have hperm : (sortBookmarks (get_bookmarks doc.outline 0)).Perm
      (get_bookmarks doc.outline 0) := List.mergeSort_perm _ _
  have hsortnd : ((sortBookmarks (get_bookmarks doc.outline 0)).map
      (fun b => b.title)).Nodup :=
    ((hperm.map (fun b => b.title)).nodup_iff).mpr hnodup
  have hempty : doc.outline.isEmpty = false := by
    cases houtline : doc.outline with
    | nil => exact absurd houtline hout
    | cons a l => rfl
  refine ⟨buildChapters doc (sortBookmarks (get_bookmarks doc.outline 0)), ?_, ?_, ?_, ?_, hperm⟩
  · unfold split_text_by_bookmarks
    rw [hempty]
    simp only [Bool.false_eq_true, if_false]
    rw [if_neg hinfos]
  · rw [buildChapters_nodup doc _ hsortnd]
    simp only [List.length_map, List.length_range]
    exact hperm.length_eq
  · rw [buildChapters_nodup doc _ hsortnd, List.map_map]
    exact range_map_getD _ (fun b => (b.title, b.level))
  · have h := List.sorted_mergeSort pageLe_trans pageLe_total (get_bookmarks doc.outline 0)
    exact h.imp (fun hab => by simpa using hab)

/-- Witness for `split_text_by_bookmarks_one_chapter_per_entry`: a 2-page
document with two distinct-titled bookmarks yields exactly 2 chapters. -/
theorem split_text_by_bookmarks_one_chapter_per_entry_witness :
    ∃ chs, split_text_by_bookmarks
        ⟨2, fun i => if i = 0 then "A".data else "B".data,
          [OutlineItem.leaf "X".data (some 0), OutlineItem.leaf "Y".data (some 1)]⟩ =
        some chs ∧
      chs.length = (get_bookmarks
        [OutlineItem.leaf "X".data (some 0), OutlineItem.leaf "Y".data (some 1)] 0).length ∧
      chs.map (fun c => (c.1, c.2.2)) =
        (sortBookmarks (get_bookmarks
          [OutlineItem.leaf "X".data (some 0), OutlineItem.leaf "Y".data (some 1)] 0)).map
          (fun b => (b.title, b.level)) ∧
      (sortBookmarks (get_bookmarks
        [OutlineItem.leaf "X".data (some 0), OutlineItem.leaf "Y".data (some 1)] 0)).Pairwise
        (fun a b => a.page ≤ b.page) ∧
      (sortBookmarks (get_bookmarks
        [OutlineItem.leaf "X".data (some 0), OutlineItem.leaf "Y".data (some 1)] 0)).Perm
        (get_bookmarks
          [OutlineItem.leaf "X".data (some 0), OutlineItem.leaf "Y".data (some 1)] 0) :=
  split_text_by_bookmarks_one_chapter_per_entry
    ⟨2, fun i => if i = 0 then "A".data else "B".data,
      [OutlineItem.leaf "X".data (some 0), OutlineItem.leaf "Y".data (some 1)]⟩
    (List.cons_ne_nil _ _) (by decide) (by decide)

/-- Counterexample to claim C4: A 2-page document whose outline flattens to
`N = 2` resolvable entries that share the title `"T"` produces a single
chapter (the later entry's text overwrites the earlier one's under the
shared key), not 2. -/
theorem split_text_by_bookmarks_duplicate_title_cex :
    split_text_by_bookmarks
        ⟨2, fun i => if i = 0 then "A".data else "B".data,
          [OutlineItem.leaf "T".data (some 0), OutlineItem.leaf "T".data (some 1)]⟩ =
      some [("T".data, "B".data, 0)] ∧
    (get_bookmarks
      [OutlineItem.leaf "T".data (some 0), OutlineItem.leaf "T".data (some 1)] 0).length = 2 := by
  constructor
  · have hb : get_bookmarks
        [OutlineItem.leaf "T".data (some 0), OutlineItem.leaf "T".data (some 1)] 0 =
        [⟨"T".data, 0, 0⟩, ⟨"T".data, 1, 0⟩] := by decide
    have hs : sortBookmarks [⟨"T".data, 0, 0⟩, ⟨"T".data, 1, 0⟩] =
        [⟨"T".data, 0, 0⟩, ⟨"T".data, 1, 0⟩] := List.mergeSort_of_sorted (by decide)
    rw [split_text_by_bookmarks, hb, hs]
    decide
  · decide

/-! ## C9: out-of-range start pages -/

theorem odInsert_mem_self (m : List (List Char × List Char × Nat)) (k : List Char)
    (v : List Char × Nat) : (k, v.1, v.2) ∈ odInsert m k v := by
  unfold odInsert
  by_cases hany : m.any (fun e => e.1 = k) = true
  · rw [if_pos hany]
    rw [List.any_eq_true] at hany
    obtain ⟨e, he, hek⟩ := hany
    exact List.mem_map.mpr ⟨e, he, by rw [if_pos (of_decide_eq_true hek)]⟩
  · rw [if_neg hany]
    exact List.mem_append_right _ (List.mem_singleton.mpr rfl)

theorem odInsert_mem_preserve (m : List (List Char × List Char × Nat)) (k : List Char)
    (v : List Char × Nat) (e : List Char × List Char × Nat) (he : e ∈ m)
    (hk : e.1 ≠ k ∨ (k, v.1, v.2) = e) : e ∈ odInsert m k v := by
  unfold odInsert
  by_cases hany : m.any (fun x => x.1 = k) = true
  · rw [if_pos hany]
    refine List.mem_map.mpr ⟨e, he, ?_⟩
    by_cases hek : e.1 = k
    · rcases hk with hne | heq
      · exact absurd hek hne
      · rw [if_pos hek]
        exact heq
    · rw [if_neg hek]
  · rw [if_neg hany]
    exact List.mem_append_left _ he

theorem odInsert_keys (m : List (List Char × List Char × Nat)) (k : List Char)
    (v : List Char × Nat) (e' : List Char × List Char × Nat)
    (he' : e' ∈ odInsert m k v) : e'.1 = k ∨ ∃ e ∈ m, e'.1 = e.1 := by
  unfold odInsert at he'
  by_cases hany : m.any (fun x => x.1 = k) = true
  · rw [if_pos hany] at he'
    obtain ⟨e, he, hfeq⟩ := List.mem_map.mp he'
    by_cases hek : e.1 = k
    · rw [if_pos hek] at hfeq
      left
      rw [← hfeq]
    · rw [if_neg hek] at hfeq
      right
      exact ⟨e, he, by rw [← hfeq]⟩
  · rw [if_neg hany] at he'
    rcases List.mem_append.mp he' with he1 | he1
    · right
      exact ⟨e', he1, rfl⟩
    · left
      rw [List.mem_singleton.mp he1]

theorem foldl_odInsert_preserve (doc : PdfDoc) (sorted : List BookmarkInfo)
    (e : List Char × List Char × Nat) :
    ∀ (is : List Nat) (acc : List (List Char × List Char × Nat)), e ∈ acc →
      (∀ j ∈ is, (sorted.getD j default).title ≠ e.1 ∨
        ((sorted.getD j default).title, (chapterValue doc sorted j).1,
          (chapterValue doc sorted j).2) = e) →
      e ∈ is.foldl (fun a j =>
        odInsert a (sorted.getD j default).title (chapterValue doc sorted j)) acc := by
  intro is
  induction is with
  | nil =>
    intro acc he _
    simpa using he
  | cons j rest ih =>
    intro acc he hcond
    rw [List.foldl_cons]
    refine ih _ ?_ (fun j' hj' => hcond j' (List.mem_cons_of_mem _ hj'))
    refine odInsert_mem_preserve _ _ _ _ he ?_
    rcases hcond j (List.mem_cons_self _ _) with hne | heq
    · left
      exact fun h => hne h.symm
    · right
      exact heq

theorem foldl_odInsert_unique_mem (doc : PdfDoc) (sorted : List BookmarkInfo) (i : Nat) :
    ∀ (is : List Nat) (acc : List (List Char × List Char × Nat)),
      i ∈ is →
      (∀ j ∈ is, j ≠ i → (sorted.getD j default).title ≠ (sorted.getD i default).title) →
      (∀ e ∈ acc, e.1 ≠ (sorted.getD i default).title) →
      ((sorted.getD i default).title, (chapterValue doc sorted i).1,
        (chapterValue doc sorted i).2) ∈
        is.foldl (fun a j =>
          odInsert a (sorted.getD j default).title (chapterValue doc sorted j)) acc := by
  intro is
  induction is with
  | nil =>
    intro acc hmem
    simp at hmem
  | cons j rest ih =>
    intro acc hmem htitles hacc
    rw [List.foldl_cons]
    by_cases hji : j = i
    · subst hji
      refine foldl_odInsert_preserve doc sorted _ rest _ (odInsert_mem_self _ _ _) ?_
      intro j' hj'
      by_cases hj'i : j' = j
      · subst hj'i
        right
        rfl
      · left
        exact htitles j' (List.mem_cons_of_mem _ hj') hj'i
    · have hir : i ∈ rest := by
        rcases List.mem_cons.mp hmem with h | h
        · exact absurd h.symm hji
        · exact h
      refine ih _ hir (fun j' hj' => htitles j' (List.mem_cons_of_mem _ hj')) ?_
      intro e he
      rcases odInsert_keys _ _ _ e he with hk | ⟨e0, he0, hk⟩
      · rw [hk]
        exact htitles j (List.mem_cons_self _ _) hji
      · rw [hk]
        exact hacc e0 he0

/-- Claim C9, amended: For every outline entry whose `start_page` falls
outside `[0, total_pages)`, `split_text_by_bookmarks` does not raise an
error, and — *provided no other entry shares that entry's title* — the
corresponding chapter is still emitted, with empty text.  When another
entry with the same title and an in-bounds page sorts after it, the shared
dictionary key is overwritten and no empty-text chapter remains
(see `split_text_by_bookmarks_out_of_range_cex`). -/
theorem split_text_by_bookmarks_out_of_range (doc : PdfDoc)
    (hout : doc.outline ≠ []) (hinfos : get_bookmarks doc.outline 0 ≠ [])
    (i : Nat) (hi : i < (sortBookmarks (get_bookmarks doc.outline 0)).length)
    (hrange : ¬ (0 ≤ ((sortBookmarks (get_bookmarks doc.outline 0)).getD i default).page ∧
      ((sortBookmarks (get_bookmarks doc.outline 0)).getD i default).page <
        (doc.numPages : Int)))
    (huniq : ∀ j, j < (sortBookmarks (get_bookmarks doc.outline 0)).length → j ≠ i →
      ((sortBookmarks (get_bookmarks doc.outline 0)).getD j default).title ≠
        ((sortBookmarks (get_bookmarks doc.outline 0)).getD i default).title) :
    ∃ chs, split_text_by_bookmarks doc = some chs ∧
      (((sortBookmarks (get_bookmarks doc.outline 0)).getD i default).title, [],
        ((sortBookmarks (get_bookmarks doc.outline 0)).getD i default).level) ∈ chs := by
  have hempty : doc.outline.isEmpty = false := by
    cases houtline : doc.outline with
    | nil => exact absurd houtline hout
    | cons a l => rfl
  have hraw : chapterRawText doc (sortBookmarks (get_bookmarks doc.outline 0)) i = [] := by
    unfold chapterRawText
    rw [if_neg hrange]
  have hval : chapterValue doc (sortBookmarks (get_bookmarks doc.outline 0)) i =
      ([], ((sortBookmarks (get_bookmarks doc.outline 0)).getD i default).level) := by
    unfold chapterValue
    rw [hraw]
    rfl
  refine ⟨buildChapters doc (sortBookmarks (get_bookmarks doc.outline 0)), ?_, ?_⟩
  · unfold split_text_by_bookmarks
    rw [hempty]
    simp only [Bool.false_eq_true, if_false]
    rw [if_neg hinfos]
  · have hmem := foldl_odInsert_unique_mem doc
      (sortBookmarks (get_bookmarks doc.outline 0)) i
      (List.range (sortBookmarks (get_bookmarks doc.outline 0)).length) []
      (List.mem_range.mpr hi)
      (fun j hj hne => huniq j (List.mem_range.mp hj) hne)
      (by intro e he; simp at he)
    rw [hval] at hmem
    exact hmem

/-- Witness for `split_text_by_bookmarks_out_of_range`: a 1-page document
with bookmarks `"U"` at page 0 and `"V"` at the out-of-range page 5 emits
a chapter `("V", "", 0)`. -/
theorem split_text_by_bookmarks_out_of_range_witness :
    ∃ chs, split_text_by_bookmarks
        ⟨1, fun _ => "A".data,
          [OutlineItem.leaf "U".data (some 0), OutlineItem.leaf "V".data (some 5)]⟩ =
        some chs ∧
      (("V".data : List Char), ([] : List Char), 0) ∈ chs := by
  have hb : get_bookmarks
      [OutlineItem.leaf "U".data (some 0), OutlineItem.leaf "V".data (some 5)] 0 =
      [⟨"U".data, 0, 0⟩, ⟨"V".data, 5, 0⟩] := by decide
  have hs : sortBookmarks [⟨"U".data, 0, 0⟩, ⟨"V".data, 5, 0⟩] =
      [⟨"U".data, 0, 0⟩, ⟨"V".data, 5, 0⟩] := List.mergeSort_of_sorted (by decide)
  obtain ⟨chs, h1, h2⟩ := split_text_by_bookmarks_out_of_range
    ⟨1, fun _ => "A".data,
      [OutlineItem.leaf "U".data (some 0), OutlineItem.leaf "V".data (some 5)]⟩
    (List.cons_ne_nil _ _) (by decide) 1
    (by rw [hb, hs]; decide)
    (by rw [hb, hs]; decide)
    (by
      rw [hb, hs]
      intro j hj hne
      have hj0 : j = 0 := by
        simp only [List.length_cons, List.length_nil] at hj
        omega
      subst hj0
      decide)
  refine ⟨chs, h1, ?_⟩
  rw [hb, hs] at h2
  simpa using h2

/-- Counterexample to claim C9: With entries `("T", page -1)` and
`("T", page 0)` in a 1-page document, the entry at the out-of-range page
`-1` gets its empty text overwritten by the same-titled in-range entry:
the only emitted chapter is `("T", "A", 0)` — no chapter with empty text
is emitted for the out-of-range entry. -/
theorem split_text_by_bookmarks_out_of_range_cex :
    split_text_by_bookmarks
        ⟨1, fun _ => "A".data,
          [OutlineItem.leaf "T".data (some (-1)), OutlineItem.leaf "T".data (some 0)]⟩ =
      some [("T".data, "A".data, 0)] ∧
    (sortBookmarks (get_bookmarks
        [OutlineItem.leaf "T".data (some (-1)), OutlineItem.leaf "T".data (some 0)] 0)).getD
      0 default = ⟨"T".data, -1, 0⟩ := by
  have hb : get_bookmarks
      [OutlineItem.leaf "T".data (some (-1)), OutlineItem.leaf "T".data (some 0)] 0 =
      [⟨"T".data, -1, 0⟩, ⟨"T".data, 0, 0⟩] := by decide
  have hs : sortBookmarks [⟨"T".data, -1, 0⟩, ⟨"T".data, 0, 0⟩] =
      [⟨"T".data, -1, 0⟩, ⟨"T".data, 0, 0⟩] := List.mergeSort_of_sorted (by decide)
  constructor
  · rw [split_text_by_bookmarks, hb, hs]
    decide
  · rw [hb, hs]
    rfl

/-! ## C1: the page interval actually extracted for a chapter -/

theorem sortBookmarks_sorted (infos : List BookmarkInfo) :
    (sortBookmarks infos).Pairwise (fun a b => a.page ≤ b.page) :=
  (List.sorted_mergeSort pageLe_trans pageLe_total infos).imp
    (fun hab => by simpa using hab)

/-- Claim C1, amended: For every chapter whose `start_page` lies within the
document, the chapter's raw text is the concatenation, in page order, of
`extract_page_text` over the half-open interval
`[start_page, min(end_page_exclusive + 1, total_pages))` — that is, the
source deliberately extracts *through* the next sorted entry's target page
(one page more than the claim's `[start_page, end_page_exclusive)`); pages
yielding empty text contribute nothing.
See `chapterRawText_interval_cex` for the extra page. -/
theorem chapterRawText_eq_interval (doc : PdfDoc) (i : Nat)
    (hi : i < (sortBookmarks (get_bookmarks doc.outline 0)).length)
    (hlo : 0 ≤ ((sortBookmarks (get_bookmarks doc.outline 0)).getD i default).page)
    (hhi : ((sortBookmarks (get_bookmarks doc.outline 0)).getD i default).page <
      (doc.numPages : Int)) :
    chapterRawText doc (sortBookmarks (get_bookmarks doc.outline 0)) i =
      concatPages doc
        ((sortBookmarks (get_bookmarks doc.outline 0)).getD i default).page.toNat
        (min (chapterEndPage doc (sortBookmarks (get_bookmarks doc.outline 0)) i + 1)
          (doc.numPages : Int)).toNat := by
  have hpage_le : ((sortBookmarks (get_bookmarks doc.outline 0)).getD i default).page ≤
      chapterEndPage doc (sortBookmarks (get_bookmarks doc.outline 0)) i := by
    unfold chapterEndPage
    by_cases hnext : i + 1 < (sortBookmarks (get_bookmarks doc.outline 0)).length
    · rw [if_pos hnext]
      have hpw := sortBookmarks_sorted (get_bookmarks doc.outline 0)
      rw [List.pairwise_iff_getElem] at hpw
      have h := hpw i (i + 1) hi hnext (by omega)
      rw [List.getD_eq_getElem _ _ hi, List.getD_eq_getElem _ _ hnext]
      exact h
    · rw [if_neg hnext]
      omega
  unfold chapterRawText
  rw [if_pos ⟨hlo, hhi⟩, if_pos (by omega :
    ((sortBookmarks (get_bookmarks doc.outline 0)).getD i default).page <
      min (chapterEndPage doc (sortBookmarks (get_bookmarks doc.outline 0)) i + 1)
        (doc.numPages : Int))]

/-- Witness for `chapterRawText_eq_interval`: a 3-page document
(`"A"`, `"B"`, `"C"`) with bookmarks at pages 0 and 2; the first chapter's
raw text runs through page 2 — the whole document. -/
theorem chapterRawText_eq_interval_witness :
    chapterRawText
        ⟨3, fun i => if i = 0 then "A".data else if i = 1 then "B".data else "C".data,
          [OutlineItem.leaf "X".data (some 0), OutlineItem.leaf "Y".data (some 2)]⟩
        (sortBookmarks (get_bookmarks
          [OutlineItem.leaf "X".data (some 0), OutlineItem.leaf "Y".data (some 2)] 0)) 0 =
      "ABC".data := by
  have hb : get_bookmarks
      [OutlineItem.leaf "X".data (some 0), OutlineItem.leaf "Y".data (some 2)] 0 =
      [⟨"X".data, 0, 0⟩, ⟨"Y".data, 2, 0⟩] := by decide
  have hs : sortBookmarks [⟨"X".data, 0, 0⟩, ⟨"Y".data, 2, 0⟩] =
      [⟨"X".data, 0, 0⟩, ⟨"Y".data, 2, 0⟩] := List.mergeSort_of_sorted (by decide)
  rw [chapterRawText_eq_interval
    ⟨3, fun i => if i = 0 then "A".data else if i = 1 then "B".data else "C".data,
      [OutlineItem.leaf "X".data (some 0), OutlineItem.leaf "Y".data (some 2)]⟩ 0
    (by rw [hb, hs]; decide) (by rw [hb, hs]; decide) (by rw [hb, hs]; decide)]
  rw [hb, hs]
  decide

/-- Counterexample to claim C1: A 2-page document (`"A"`, `"B"`) with bookmarks
at pages 0 and 1: the first chapter's `end_page_exclusive` is 1, so the
claim says its raw text is the concatenation over `[0, 1)` = `"A"`; the
code extracts `[0, min(1+1, 2))` = `"AB"`, and the emitted chapter text is
accordingly `"AB"`. -/
theorem chapterRawText_interval_cex :
    chapterRawText
        ⟨2, fun i => if i = 0 then "A".data else "B".data,
          [OutlineItem.leaf "X".data (some 0), OutlineItem.leaf "Y".data (some 1)]⟩
        (sortBookmarks (get_bookmarks
          [OutlineItem.leaf "X".data (some 0), OutlineItem.leaf "Y".data (some 1)] 0)) 0 =
      "AB".data ∧
    chapterEndPage
        ⟨2, fun i => if i = 0 then "A".data else "B".data,
          [OutlineItem.leaf "X".data (some 0), OutlineItem.leaf "Y".data (some 1)]⟩
        (sortBookmarks (get_bookmarks
          [OutlineItem.leaf "X".data (some 0), OutlineItem.leaf "Y".data (some 1)] 0)) 0 = 1 ∧
    concatPages
        ⟨2, fun i => if i = 0 then "A".data else "B".data,
          [OutlineItem.leaf "X".data (some 0), OutlineItem.leaf "Y".data (some 1)]⟩ 0 1 =
      "A".data ∧
    ¬ ("AB".data : List Char) = "A".data ∧
    split_text_by_bookmarks
        ⟨2, fun i => if i = 0 then "A".data else "B".data,
          [OutlineItem.leaf "X".data (some 0), OutlineItem.leaf "Y".data (some 1)]⟩ =
      some [("X".data, "AB".data, 0), ("Y".data, "B".data, 0)] := by
  have hb : get_bookmarks
      [OutlineItem.leaf "X".data (some 0), OutlineItem.leaf "Y".data (some 1)] 0 =
      [⟨"X".data, 0, 0⟩, ⟨"Y".data, 1, 0⟩] := by decide
  have hs : sortBookmarks [⟨"X".data, 0, 0⟩, ⟨"Y".data, 1, 0⟩] =
      [⟨"X".data, 0, 0⟩, ⟨"Y".data, 1, 0⟩] := List.mergeSort_of_sorted (by decide)
  refine ⟨?_, ?_, by decide, by decide, ?_⟩
  · rw [hb, hs]
    decide
  · rw [hb, hs]
    decide
  · rw [split_text_by_bookmarks, hb, hs]
    decide

/-! ## C6: boundary refinement by title markers -/

/-- Claim C6: For every non-empty raw chapter text: if the chapter's own
title is found by the whitespace-insensitive search (at position `s`), the
refined text is the slice starting at `s` plus the original title's
character length, ending just before the next chapter title's match
position when a next title exists and is found (otherwise extending to the
end of the text), then stripped of leading/trailing whitespace; if the
chapter's own title is not found, the raw text is kept unchanged (up to
the final strip).  Concretely, raw
`"noise Intro real content Chapter 2 more"` with titles
`"Intro"`/`"Chapter 2"` refines to `"real content"`. -/
theorem refineChapterText_boundaries :
    (∀ chapterText title nextTitle : List Char, chapterText ≠ [] →
      (find_ignoring_whitespace chapterText title 0 = -1 →
        pyStrip (refineChapterText chapterText title nextTitle) = pyStrip chapterText) ∧
      (∀ s : Nat, find_ignoring_whitespace chapterText title 0 = (s : Int) →
        (nextTitle ≠ [] →
          (∀ e : Nat, find_ignoring_whitespace chapterText nextTitle
              (s + title.length) = (e : Int) →
            pyStrip (refineChapterText chapterText title nextTitle) =
              pyStrip (pySlice chapterText (s + title.length) e)) ∧
          (find_ignoring_whitespace chapterText nextTitle (s + title.length) = -1 →
            pyStrip (refineChapterText chapterText title nextTitle) =
              pyStrip (chapterText.drop (s + title.length)))) ∧
        (nextTitle = [] →
          pyStrip (refineChapterText chapterText title nextTitle) =
            pyStrip (chapterText.drop (s + title.length))))) ∧
    pyStrip (refineChapterText "noise Intro real content Chapter 2 more".data
      "Intro".data "Chapter 2".data) = "real content".data := by
  constructor
  · intro chapterText title nextTitle hne
    constructor
    · intro hnf
      unfold refineChapterText
      rw [if_neg hne, hnf]
      simp
    · intro s hf
      have hsum : ((find_ignoring_whitespace chapterText title 0 + title.length)).toNat =
          s + title.length := by
        rw [hf]
        omega
      constructor
      · intro hnt
        constructor
        · intro e he
          unfold refineChapterText
          rw [if_neg hne, if_pos (by rw [hf]; omega), if_pos hnt, hsum, he,
            if_pos (by omega : ¬ ((e : Int) = -1))]
          simp
        · intro hnotfound
          unfold refineChapterText
          rw [if_neg hne, if_pos (by rw [hf]; omega), if_pos hnt, hsum, hnotfound,
            if_neg (by simp)]
      · intro hntnil
        unfold refineChapterText
        rw [if_neg hne, if_pos (by rw [hf]; omega), if_neg (by simp [hntnil]), hsum]
  · decide

/-- Witness for `refineChapterText_boundaries` at the claim's example:
title found at 6, next title found at 25, so the refined text is the
stripped slice `[11, 25)`. -/
theorem refineChapterText_boundaries_witness :
    pyStrip (refineChapterText "noise Intro real content Chapter 2 more".data
        "Intro".data "Chapter 2".data) =
      pyStrip (pySlice "noise Intro real content Chapter 2 more".data 11 25) := by
  have h := refineChapterText_boundaries.1
    "noise Intro real content Chapter 2 more".data "Intro".data "Chapter 2".data
    (by decide)
  exact ((h.2 6 (by decide)).1 (by decide)).1 25 (by decide)

end PdfDocTranslator
